import Mathlib

/-!
Shallow embedding of the static-analysis core of `src/main.ts` (dos-decompile).

JS collections are modelled by insertion-ordered lists:
* a JS `Set` is a duplicate-free `List` built with `setAdd`;
* a JS `Map` (and a string-keyed record) is an association `List` handled with
  `mapGet` / `mapSet` / `mapHas`, where `mapSet` updates in place and appends
  fresh keys, matching `Map.prototype.set`.
Strings are Lean `String`s and source text is a `List Char`.
-/

namespace DD

/-- JS `Set.prototype.add`: append the element unless already present. -/
def setAdd {α : Type} [DecidableEq α] (s : List α) (x : α) : List α :=
  if x ∈ s then s else s ++ [x]

/-- JS `Set.prototype.delete`: remove the element. -/
def setDelete {α : Type} [DecidableEq α] (s : List α) (x : α) : List α :=
  s.filter (fun y => decide (y ≠ x))

/-- JS `new Set(iterable)`: deduplicate keeping first occurrences. -/
def setOf {α : Type} [DecidableEq α] (l : List α) : List α :=
  l.foldl setAdd []

/-- JS `Map.prototype.get`. -/
def mapGet {κ β : Type} [DecidableEq κ] (m : List (κ × β)) (k : κ) : Option β :=
  (m.find? (fun p => decide (p.1 = k))).map (fun p => p.2)

/-- JS `Map.prototype.has`. -/
def mapHas {κ β : Type} [DecidableEq κ] (m : List (κ × β)) (k : κ) : Bool :=
  (mapGet m k).isSome

/-- JS `Map.prototype.set`: replace in place when the key exists, else append. -/
def mapSet {κ β : Type} [DecidableEq κ] (m : List (κ × β)) (k : κ) (v : β) : List (κ × β) :=
  if mapHas m k then m.map (fun p => if p.1 = k then (k, v) else p) else m ++ [(k, v)]

/-- Keys of an association list, in order. -/
def keysOf {κ β : Type} (m : List (κ × β)) : List κ :=
  m.map (fun p => p.1)

/-! ### Register tables (`REG_NAMES`, `SUB_REGS`, `SUPER_REGS`, `REG_COVERINGS`) -/

def REG_NAMES : List String :=
  ["al", "cl", "dl", "bl", "ah", "ch", "dh", "bh",
   "ax", "cx", "dx", "bx", "sp", "bp", "si", "di"]

def SUB_REGS_LIST : List (String × List (String × String)) :=
  [("ax", [("highByte", "ah"), ("byte", "al")]),
   ("cx", [("highByte", "ch"), ("byte", "cl")]),
   ("dx", [("highByte", "dh"), ("byte", "dl")]),
   ("bx", [("highByte", "bh"), ("byte", "bl")]),
   ("hflags", [("bit7", "sf"), ("bit6", "zf"), ("bit4", "af"), ("bit2", "pf"), ("bit0", "cf")]),
   ("flags", [("bit11", "of"), ("bit10", "df"), ("bit9", "if"), ("bit8", "tf"),
              ("bit7", "sf"), ("bit6", "zf"), ("bit4", "af"), ("bit2", "pf"), ("bit0", "cf")])]

/-- `SUB_REGS.get(r) ?? {}` as an association list of field name to sub-register. -/
def subRegsOf (r : String) : List (String × String) :=
  (mapGet SUB_REGS_LIST r).getD []

/-- Helper for the startup derivation of `SUPER_REGS`. -/
def superAdd (m : List (String × List String)) (sub sup : String) : List (String × List String) :=
  match mapGet m sub with
  | some l => mapSet m sub (l ++ [sup])
  | none => m ++ [(sub, [sup])]

/-- `SUPER_REGS`, derived from `SUB_REGS` exactly as the source does at startup. -/
def SUPER_REGS : List (String × List String) :=
  SUB_REGS_LIST.foldl (fun acc kv => kv.2.foldl (fun a p => superAdd a p.2 kv.1) acc) []

/-- `SUPER_REGS.get(r) ?? []`. -/
def superRegsOf (r : String) : List String :=
  (mapGet SUPER_REGS r).getD []

def REG_COVERINGS : List (String × List String) :=
  [("ax", ["ah", "al"]), ("cx", ["ch", "cl"]), ("dx", ["dh", "dl"]), ("bx", ["bh", "bl"])]

/-- Every string that occurs as a sub-register value in `SUB_REGS`. -/
def ALLSUBVALS : List String :=
  ["ah", "al", "ch", "cl", "dh", "dl", "bh", "bl",
   "sf", "zf", "af", "pf", "cf", "of", "df", "if", "tf"]

/-! ### Register algebra -/

/-- `expandSubRegs`. -/
def expandSubRegs (regs : List String) : List String :=
  regs.foldl (fun acc r => (subRegsOf r).foldl (fun a p => setAdd a p.2) (setAdd acc r)) []

/-- `expandCoverings`: close under sub-registers, then add each covering
    super-register whose parts are all present (mutating the same set). -/
def expandCoverings (regs : List String) : List String :=
  REG_COVERINGS.foldl
    (fun acc c => if c.2.all (fun sub => decide (sub ∈ acc)) then setAdd acc c.1 else acc)
    (expandSubRegs regs)

/-- `decomposeCoverings`: replace each present covering super-register by its parts. -/
def decomposeCoverings (regs : List String) : List String :=
  REG_COVERINGS.foldl
    (fun acc c =>
      if c.1 ∈ acc then c.2.foldl setAdd (setDelete acc c.1) else acc)
    (setOf regs)

/-- `expandAliases`: sub-register closure, then add super-registers of every member. -/
def expandAliases (reg : List String) : List String :=
  let subClosedRegs :=
    reg.foldl (fun acc r => (subRegsOf r).foldl (fun a p => setAdd a p.2) (setAdd acc r)) []
  subClosedRegs.foldl (fun acc r => (superRegsOf r).foldl (fun a s => setAdd a s) (setAdd acc r)) []

/-! ### Operands and instructions (post-parse, as produced by `parseLines` and
    `parseStructuredInstruction`). -/

inductive Operand
  | varOp (name : String)
  | regOp (reg : String)
  | intOp (digits : String) (base : Nat)
  | strOp (text : String)
  | indirect (address : Operand)
  | binOp (op : String) (lhs rhs : Operand)
  | unOp (op : String) (arg : Operand)
  | garbage (message : String)
deriving DecidableEq

/-- `RegisterOperand | MemoryOperand | ImmediateOperand` for structured instructions. -/
inductive XOperand
  | regOp (reg : String)
  | memOp (baseReg indexReg : Option String) (disp : Option Operand)
  | immOp (op : Operand)
deriving DecidableEq

inductive Instr
  | generic (mnemonic : String) (operands : List Operand)
  | movI (dest src : XOperand)
  | jmpI (mnemonic : String) (target : XOperand)
  | jccI (mnemonic condition : String) (target : XOperand)
deriving DecidableEq

/-- `asRegister` from the source. The branch body is the bare expression
    statement `operand.reg;` whose value is discarded (there is no `return`),
    so every call falls through to `return undefined`. -/
def asRegister (operand : Operand) : Option String :=
  match operand with
  | .regOp _ => none
  | _ => none

/-! ### Instruction IO model (`instructionIOImpl` / `instructionIO`) -/

/-- Register collector used by the `search` helpers of `operandAsSrc` and `src`. -/
def collectRegs : List String → Operand → List String
  | acc, .regOp r => setAdd acc r
  | acc, .indirect a => collectRegs acc a
  | acc, .binOp _ l r => collectRegs (collectRegs acc l) r
  | acc, .unOp _ a => collectRegs acc a
  | acc, _ => acc

/-- `operandAsDest`. -/
def operandAsDest : XOperand → List String
  | .regOp r => [r]
  | _ => []

/-- `operandAsSrc`. -/
def operandAsSrc : XOperand → List String
  | .regOp r => [r]
  | .memOp b i d =>
      let acc : List String := match b with | some r => [r] | none => []
      let acc := match i with | some r => setAdd acc r | none => acc
      match d with | some op => collectRegs acc op | none => acc
  | .immOp op => collectRegs [] op

/-- `dest(inst)` for generic instructions (always empty because of `asRegister`). -/
def destOf (operands : List Operand) : List String :=
  match operands with
  | [] => []
  | op :: _ =>
      match asRegister op with
      | some r => [r]
      | none => []

/-- `src(inst)` for generic instructions. -/
def srcOf (operands : List Operand) : List String :=
  operands.foldl collectRegs []

/-- `isSelfOp`. -/
def isSelfOp (operands : List Operand) : Bool :=
  match operands with
  | [.regOp a, .regOp b] => decide (a = b)
  | _ => false

/-- The generic-mnemonic arm of `instructionIOImpl`; result is `(uses, defines)`.
    Unknown mnemonics are logged in the source and report empty IO. -/
def genericIOImpl (mnemonic : String) (operands : List Operand) : List String × List String :=
  match mnemonic with
  | "add" | "sub" | "and" | "or" | "xor" | "neg" =>
      if isSelfOp operands ∧ (mnemonic = "and" ∨ mnemonic = "or") then
        (srcOf operands, ["flags"])
      else if isSelfOp operands ∧ mnemonic = "xor" then
        ([], destOf operands ++ ["flags"])
      else
        (srcOf operands, destOf operands ++ ["flags"])
  | "adc" | "sbb" => (srcOf operands ++ ["cf"], destOf operands ++ ["flags"])
  | "cmp" | "test" => (srcOf operands, ["flags"])
  | "not" => (srcOf operands, destOf operands)
  | "div" =>
      if (srcOf operands).any
          (fun r => decide (r ∈ ["ax", "cx", "dx", "bx", "sp", "bp", "si", "di"])) then
        (srcOf operands ++ ["ax", "dx"], destOf operands ++ ["ax", "dx", "flags"])
      else
        (srcOf operands ++ ["al", "ah"], destOf operands ++ ["al", "ah", "flags"])
  | "mul" =>
      if (srcOf operands).any
          (fun r => decide (r ∈ ["ax", "cx", "dx", "bx", "sp", "bp", "si", "di"])) then
        (srcOf operands ++ ["ax"], destOf operands ++ ["ax", "dx", "flags"])
      else
        (srcOf operands ++ ["al"], destOf operands ++ ["al", "ah", "flags"])
  | "aam" => (["al"], ["al", "ah", "flags"])
  | "call" => ([], [])
  | "cbw" => (["al"], ["al", "ah"])
  | "cmc" => (["cf"], ["cf"])
  | "cmpb" => (["si", "di"], ["flags"])
  | "dec" | "inc" => (srcOf operands, destOf operands ++ ["of", "sf", "zf", "af", "pf"])
  | "int" => ([], [])
  | "lahf" => (["sf", "zf", "af", "pf", "cf"], ["ah"])
  | "sahf" => (["ah"], ["sf", "zf", "af", "pf", "cf"])
  | "lodb" => (["si"], ["al"])
  | "lodw" => (["si"], ["ax"])
  | "loop" => (["cx"], ["cx"])
  | "xchg" =>
      if isSelfOp operands then ([], [])
      else (srcOf operands, destOf operands ++ ["flags"])
  | "movb" => (["si", "di"], [])
  | "movw" => (["si", "di"], [])
  | "pop" => (["sp"], ["sp"] ++ destOf operands)
  | "push" => (["sp"] ++ srcOf operands, ["sp"])
  | "rcl" | "rcr" => (srcOf operands ++ ["cf"], destOf operands ++ ["cf", "of"])
  | "rol" | "ror" => (srcOf operands, destOf operands ++ ["cf", "of"])
  | "rep" | "repe" | "repne" | "repnz" => ([], [])
  | "ret" => (["sp"], ["sp"])
  | "scab" | "scasb" => (["al", "di"], ["flags"])
  | "shl" | "shr" => (srcOf operands, destOf operands ++ ["flags"])
  | "stc" | "clc" => ([], ["cf"])
  | "cld" | "std" | "down" | "up" => ([], ["cd"])
  | "stob" => (["al", "di"], [])
  | "stow" => (["ax", "di"], [])
  | "xlat" => (["al", "bx"], ["al"])
  | "align" | "db" | "dw" | "ds" | "dm" | "equ" | "org" | "put" => ([], [])
  | _ => ([], [])

/-- `instructionIOImpl`, returning `(uses, defines)` as raw lists.
    The unknown-condition arm of the source throws; conditions are always drawn
    from `JccMap`, so that arm is modelled as empty IO. -/
def instructionIOImpl (inst : Instr) : List String × List String :=
  match inst with
  | .movI dest src => (operandAsSrc src, operandAsDest dest)
  | .jmpI _ _ => ([], [])
  | .jccI _ condition _ =>
      if condition = "c" ∨ condition = "nc" then (["cf"], [])
      else if condition = "a" ∨ condition = "na" then (["cf", "zf"], [])
      else if condition = "l" ∨ condition = "nl" then (["of", "sf"], [])
      else if condition = "le" ∨ condition = "nle" then (["of", "sf", "zf"], [])
      else if condition = "z" ∨ condition = "nz" then (["zf"], [])
      else if condition = "o" ∨ condition = "no" then (["of"], [])
      else if condition = "s" ∨ condition = "ns" then (["sf"], [])
      else if condition = "p" ∨ condition = "np" then (["pf"], [])
      else ([], [])
  | .generic mnemonic operands => genericIOImpl mnemonic operands

/-- `instructionIO`: wrap both components in fresh `Set`s. -/
def instructionIOPair (inst : Instr) : List String × List String :=
  (setOf (instructionIOImpl inst).1, setOf (instructionIOImpl inst).2)

/-! ### `trimSub` (lexer truncation)

`text.replace(/\x1A.*/g, "")`: each match starts at a control-Z and `.`
(greedy, no `s` flag) extends to just before the next JS line terminator
(`\n`, `\r`, U+2028, U+2029) or the end of the text. -/

/-- A character `.` does not match in a JS regex without the `s` flag. -/
def isLineTerm (c : Char) : Bool :=
  decide (c = '\n' ∨ c = '\r' ∨ c = '\u2028' ∨ c = '\u2029')

mutual
/-- `trimSub` on the character list of the input text. -/
def trimSub : List Char → List Char
  | [] => []
  | c :: cs => if c = '\x1A' then trimSubDrop cs else c :: trimSub cs

/-- Skip the remainder of a `/\x1A.*/` match: drop characters up to the next
    line terminator (which is kept), then continue scanning. -/
def trimSubDrop : List Char → List Char
  | [] => []
  | c :: cs => if isLineTerm c then c :: trimSub cs else trimSubDrop cs
end

/-- Split a text into its first line plus `(terminator, line)` pairs. -/
def splitLinesT : List Char → List Char × List (Char × List Char)
  | [] => ([], [])
  | c :: cs =>
      if isLineTerm c then ([], (c, (splitLinesT cs).1) :: (splitLinesT cs).2)
      else (c :: (splitLinesT cs).1, (splitLinesT cs).2)

/-- Truncate one line at its first control-Z byte. -/
def truncLine (l : List Char) : List Char :=
  l.takeWhile (fun c => decide (c ≠ '\x1A'))

/-- Rejoin truncated continuation lines, keeping each terminator. -/
def tailJoinTrunc (ls : List (Char × List Char)) : List Char :=
  ls.foldr (fun tl acc => tl.1 :: truncLine tl.2 ++ acc) []

/-- Per-line truncation at control-Z: every line individually loses its suffix
    from the first control-Z on, and all lines (with their terminators) are kept. -/
def lineTrimSpec (cs : List Char) : List Char :=
  truncLine (splitLinesT cs).1 ++ tailJoinTrunc (splitLinesT cs).2

/-! ### Write summaries and `analyzeWrites` -/

/-- A write-map value: `"any"`, a register name, or a `StackAlias`. -/
inductive WVal
  | anyW
  | regW (reg : String)
  | stackW (index size : Int)
deriving DecidableEq

/-- The abstract stack-pointer delta: a number or `"any"`. -/
inductive SpVal
  | num (n : Int)
  | anyS
deriving DecidableEq

structure WriteData where
  writes : List (String × WVal)
  returnsAt : List Nat
  sp : SpVal
deriving DecidableEq

def emptyWriteData : WriteData := ⟨[], [], .num 0⟩

def retWriteData (i : Nat) : WriteData := ⟨[], [i], .num 0⟩

/-- The per-binding step of `pushWrites`: shift stack aliases down the stack. -/
def pushShiftStep (offset : Int) (acc : List (String × WVal)) (kv : String × WVal) :
    List (String × WVal) :=
  match kv.2 with
  | .anyW => mapSet acc kv.1 .anyW
  | .regW v => mapSet acc kv.1 (.regW v)
  | .stackW idx size => mapSet acc kv.1 (.stackW (idx + offset) size)

/-- `pushWrites`. -/
def pushWrites (writeSrc : WriteData) (offset : Int) : WriteData :=
  if writeSrc.returnsAt = [] then emptyWriteData
  else
    ⟨writeSrc.writes.foldl (pushShiftStep offset) [],
     writeSrc.returnsAt,
     match writeSrc.sp with | .anyS => SpVal.anyS | .num n => .num (n + offset)⟩

/-- The per-binding step of `popWrites`: shift or invalidate stack aliases and
    collect the `Stack(0,2)` keys to be restored. -/
def popShiftStep (offset : Int) (resultReg : Option String)
    (acc : List (String × WVal) × List String) (kv : String × WVal) :
    List (String × WVal) × List String :=
  match kv.2 with
  | .anyW => (mapSet acc.1 kv.1 .anyW, acc.2)
  | .regW v => (mapSet acc.1 kv.1 (.regW v), acc.2)
  | .stackW idx size =>
      if idx = 0 ∧ size = 2 ∧ resultReg.isSome then (acc.1, acc.2 ++ [kv.1])
      else if idx < offset then (mapSet acc.1 kv.1 .anyW, acc.2)
      else (mapSet acc.1 kv.1 (.stackW (idx - offset) size), acc.2)

/-- The per-field inner loop of the pop restoration. -/
def popRestoreSubStep (res : String) (a : List (String × WVal)) (p : String × String) :
    List (String × WVal) :=
  match mapGet (subRegsOf res) p.1 with
  | some subRes => mapSet a p.2 (.regW subRes)
  | none => a

/-- The restore loop of `popWrites`: bind each restored key to the popped
    register and its matching sub-fields to the register's sub-fields. -/
def popRestoreStep (resultReg : Option String) (acc : List (String × WVal))
    (restoreReg : String) : List (String × WVal) :=
  match resultReg with
  | none => acc
  | some res =>
      (subRegsOf restoreReg).foldl (popRestoreSubStep res) (mapSet acc restoreReg (.regW res))

/-- `popWrites`. -/
def popWrites (writeSrc : WriteData) (offset : Int) (resultReg : Option String) : WriteData :=
  if writeSrc.returnsAt = [] then emptyWriteData
  else
    let folded := writeSrc.writes.foldl (popShiftStep offset resultReg) ([], [])
    let restored := folded.2.foldl (popRestoreStep resultReg) folded.1
    ⟨restored.filter (fun kv => decide (¬ kv.2 = WVal.regW kv.1)),
     writeSrc.returnsAt,
     match writeSrc.sp with | .anyS => SpVal.anyS | .num n => .num (n - offset)⟩

/-- The composition step of `seqWrites`: route `Reg` values through the mapping. -/
def seqComposeStep (mapping : List (String × WVal)) (acc : List (String × WVal))
    (kv : String × WVal) : List (String × WVal) :=
  match kv.2 with
  | .anyW => mapSet acc kv.1 .anyW
  | .regW v => mapSet acc kv.1 ((mapGet mapping v).getD (.regW v))
  | .stackW idx size => mapSet acc kv.1 (.stackW idx size)

/-- The overlay step of `seqWrites`: add mapping bindings not covered by `next`. -/
def seqOverlayStep (nextWrites : List (String × WVal)) (acc : List (String × WVal))
    (kv : String × WVal) : List (String × WVal) :=
  if mapHas nextWrites kv.1 then acc else mapSet acc kv.1 kv.2

/-- `seqWrites`. -/
def seqWrites (next : WriteData) (mapping : List (String × WVal)) : WriteData :=
  if next.returnsAt = [] then emptyWriteData
  else
    ⟨mapping.foldl (seqOverlayStep next.writes)
        (next.writes.foldl (seqComposeStep mapping) []),
     next.returnsAt, next.sp⟩

/-- The elementwise merge step of `mergeWrites` over the second summary. -/
def mergeStep (acc : List (String × WVal)) (kv : String × WVal) : List (String × WVal) :=
  match mapGet acc kv.1 with
  | none => mapSet acc kv.1 kv.2
  | some v1 =>
      match v1, kv.2 with
      | .regW a, .regW b => if a = b then acc else mapSet acc kv.1 .anyW
      | .stackW i1 s1, .stackW i2 s2 =>
          if i1 = i2 ∧ s1 = s2 then acc else mapSet acc kv.1 .anyW
      | _, _ => mapSet acc kv.1 .anyW

/-- `mergeWrites`. -/
def mergeWrites (write1 write2 : WriteData) : WriteData :=
  if write1.returnsAt = [] then write2
  else if write2.returnsAt = [] then write1
  else
    ⟨write2.writes.foldl mergeStep
        (write1.writes.foldl (fun acc kv => mapSet acc kv.1 kv.2) []),
     write2.returnsAt.foldl setAdd write1.returnsAt,
     match write1.sp, write2.sp with
     | .anyS, _ => SpVal.anyS
     | .num _, .anyS => .anyS
     | .num a, .num b => if a = b then .num a else .anyS⟩

/-- The `level` helper of `updateWrites` (argument may be `undefined`). -/
def level : Option WVal → Nat
  | some .anyW => 3
  | some (.regW _) => 2
  | some (.stackW _ _) => 2
  | none => 1

/-- The per-binding loop of `updateWrites`: raise each binding whose incoming
    level is strictly higher, tracking the `changed` flag. -/
def updWritesFold (dest : List (String × WVal)) (c : Bool) (src : List (String × WVal)) :
    List (String × WVal) × Bool :=
  src.foldl
    (fun acc kv =>
      if level (some kv.2) > level (mapGet acc.1 kv.1) then (mapSet acc.1 kv.1 kv.2, true)
      else acc)
    (dest, c)

/-- The `returnsAt` loop of `updateWrites`: add the missing indices, tracking
    the `changed` flag. -/
def updRetFold (dest : List Nat) (c : Bool) (src : List Nat) : List Nat × Bool :=
  src.foldl (fun acc k => if k ∈ acc.1 then acc else (acc.1 ++ [k], true)) (dest, c)

/-- `updateWrites`: monotone in-place merge; returns the updated cell and the
    `changed` flag. `sp` is overwritten unconditionally and never sets the flag. -/
def updateWrites (writeDataDest writeDataSrc : WriteData) : WriteData × Bool :=
  (⟨(updWritesFold writeDataDest.writes false writeDataSrc.writes).1,
    (updRetFold writeDataDest.returnsAt
      (updWritesFold writeDataDest.writes false writeDataSrc.writes).2
      writeDataSrc.returnsAt).1,
    writeDataSrc.sp⟩,
   (updRetFold writeDataDest.returnsAt
      (updWritesFold writeDataDest.writes false writeDataSrc.writes).2
      writeDataSrc.returnsAt).2)

/-- `expandAliases(...)` folded into a fresh map binding every alias to `Any`. -/
def anyMapOf (regs : List String) : List (String × WVal) :=
  regs.foldl (fun acc r => mapSet acc r .anyW) []

/-- The sub-field transcription loop of the mov `mapping`. -/
def movSubStep (srcReg : String) (acc : List (String × WVal)) (p : String × String) :
    List (String × WVal) :=
  match mapGet (subRegsOf srcReg) p.1 with
  | some srcSub => mapSet acc p.2 (.regW srcSub)
  | none => acc

/-- The mov-specific `mapping` of `analyzeWrites` (`mov dst, src`, both registers). -/
def movMapping (destReg srcReg : String) : List (String × WVal) :=
  (subRegsOf destReg).foldl (movSubStep srcReg)
    (mapSet (anyMapOf (expandAliases [destReg])) destReg (.regW srcReg))

/-- The special-cased arms of the `newWriteData` computation inside the
    `analyzeWrites` sweep (`none` means the default transfer applies).
    `labels` indices produced by `analyzeLabels` always lie below the instruction
    count; the jump arm mirrors `writesFrom[targetIndex]` being `undefined`
    (falsy, hence the default arm), and the conditional-jump arm reads the
    in-range cell (`getD` with an unreachable default). -/
def writeTransferCore (labels : List (String × Nat)) (state : List WriteData) (i : Nat)
    (instr : Instr) (next : WriteData) : Option WriteData :=
  match instr with
  | .movI dest src =>
      match dest with
      | .regOp d =>
          if d = "sp" then some emptyWriteData
          else
            match src with
            | .regOp s => some (seqWrites next (movMapping d s))
            | _ => none
      | _ => none
  | .jmpI _ target =>
      match target with
      | .immOp (.varOp name) => (mapGet labels name).bind (fun t => state.get? t)
      | _ => none
  | .jccI _ _ target =>
      match target with
      | .immOp (.varOp name) =>
          (mapGet labels name).map (fun t => mergeWrites next (state.getD t emptyWriteData))
      | _ => none
  | .generic mnemonic operands =>
      if mnemonic = "push" then some (popWrites next 2 (operands.head?.bind asRegister))
      else if mnemonic = "pop" then
        match operands.head?.bind asRegister with
        | some reg => some (seqWrites (pushWrites next 2) [(reg, .stackW 0 2)])
        | none => some (pushWrites next 2)
      else if mnemonic = "ret" then some (retWriteData i)
      else none

/-- The default transfer: every alias of a defined register becomes `Any`. -/
def writeTransferDefault (instr : Instr) (next : WriteData) : WriteData :=
  seqWrites next (anyMapOf (expandAliases (instructionIOPair instr).2))

/-- One instruction's `newWriteData` computation inside the `analyzeWrites` sweep. -/
def writeTransfer (labels : List (String × Nat)) (state : List WriteData) (i : Nat)
    (instr : Instr) (next : WriteData) : WriteData :=
  match writeTransferCore labels state i instr next with
  | some wd => wd
  | none => writeTransferDefault instr next

/-- One index of the sweep: compute `newWriteData` and merge it with `updateWrites`. -/
def sweepStep (instrs : List Instr) (labels : List (String × Nat))
    (acc : List WriteData × Bool) (i : Nat) : List WriteData × Bool :=
  match instrs.get? i with
  | none => acc
  | some instr =>
      (acc.1.set i
        (updateWrites (acc.1.getD i emptyWriteData)
          (writeTransfer labels acc.1 i instr (acc.1.getD (i + 1) emptyWriteData))).1,
       acc.2 ||
        (updateWrites (acc.1.getD i emptyWriteData)
          (writeTransfer labels acc.1 i instr (acc.1.getD (i + 1) emptyWriteData))).2)

/-- One full pass of the `analyzeWrites` loop, in reverse index order. -/
def sweepWrites (instrs : List Instr) (labels : List (String × Nat))
    (state : List WriteData) : List WriteData × Bool :=
  (List.range instrs.length).reverse.foldl (sweepStep instrs labels) (state, false)

/-- The `while (changed)` loop with explicit fuel; `none` means the fuel ran out. -/
def writesLoop (instrs : List Instr) (labels : List (String × Nat)) :
    Nat → List WriteData → Option (List WriteData)
  | 0, _ => none
  | fuel + 1, state =>
      if (sweepWrites instrs labels state).2 then
        writesLoop instrs labels fuel (sweepWrites instrs labels state).1
      else some (sweepWrites instrs labels state).1

/-- Every string that can appear as a write-map key besides the destination
    registers of structured `mov` instructions. -/
def FIXED_WRITE_KEYS : List String :=
  ["ax", "cx", "dx", "bx", "sp", "bp", "si", "di",
   "ah", "al", "ch", "cl", "dh", "dl", "bh", "bl",
   "hflags", "flags", "sf", "zf", "af", "pf", "cf", "of", "df", "if", "tf", "cd"]

/-- Destination registers of structured `mov` instructions. -/
def movDests (instrs : List Instr) : List String :=
  instrs.foldl
    (fun acc instr =>
      match instr with
      | .movI (.regOp d) _ => setAdd acc d
      | _ => acc) []

/-- Finite universe of write-map keys reachable for a given program. -/
def writeKeyUniverse (instrs : List Instr) : List String :=
  (FIXED_WRITE_KEYS ++ movDests instrs).dedup

/-- Strict upper bound on the monotone measure of the write-analysis state:
    every cell holds at most `|universe|` bindings of level at most 3 plus at
    most `|instructions|` return indices. -/
def writesBound (instrs : List Instr) : Nat :=
  instrs.length * (3 * (writeKeyUniverse instrs).length + instrs.length)

/-- Fuel that provably suffices for the write fixpoint (see the termination proof). -/
def writesFuel (instrs : List Instr) : Nat :=
  writesBound instrs + 1

/-- Sum of the lattice levels of the bindings of a writes map. -/
def wmeasure (w : List (String × WVal)) : Nat :=
  (w.map (fun kv => level (some kv.2))).sum

/-- The monotone measure of one write summary (its `sp` does not participate:
    `updateWrites` overwrites `sp` without reporting a change). -/
def wdMeasure (wd : WriteData) : Nat :=
  wmeasure wd.writes + wd.returnsAt.length

/-- The monotone measure of the whole write-analysis state. -/
def stMeasure (state : List WriteData) : Nat :=
  (state.map wdMeasure).sum

/-- Key/return-index ranges of one write summary. -/
def wdOK (instrs : List Instr) (wd : WriteData) : Prop :=
  (∀ k ∈ keysOf wd.writes, k ∈ writeKeyUniverse instrs) ∧
  (∀ j ∈ wd.returnsAt, j < instrs.length)

/-- Duplicate-freeness of one write summary (JS `Map` keys and `Set` members). -/
def wdND (wd : WriteData) : Prop :=
  (keysOf wd.writes).Nodup ∧ wd.returnsAt.Nodup

/-- Invariant of the write-analysis state. -/
def stOK (instrs : List Instr) (state : List WriteData) : Prop :=
  state.length = instrs.length ∧ ∀ wd ∈ state, wdOK instrs wd ∧ wdND wd

def initWrites (instrs : List Instr) : List WriteData :=
  List.replicate instrs.length emptyWriteData

/-- `analyzeWrites` run with its provably sufficient fuel. -/
def analyzeWritesOpt (instrs : List Instr) (labels : List (String × Nat)) :
    Option (List WriteData) :=
  writesLoop instrs labels (writesFuel instrs) (initWrites instrs)

/-- Total version used by the concrete theorems (the fuel never runs out). -/
def analyzeWrites (instrs : List Instr) (labels : List (String × Nat)) : List WriteData :=
  (analyzeWritesOpt instrs labels).getD (initWrites instrs)

/-! ### Function discovery (`markFunctions`)

`inverseLabels` is modelled as an association list from instruction index to
the label names attached there; `markFunctions` only inspects whether that
list is non-empty, exactly like `inverseLabels.has(i) && length > 0`. -/

/-- `labelGraph.get(lastLabel)!.push(i)`; `lastLabel` is always a key. -/
def graphAppend (g : List (Nat × List Nat)) (k v : Nat) : List (Nat × List Nat) :=
  match mapGet g k with
  | some l => mapSet g k (l ++ [v])
  | none => g

/-- The label-adjacency-graph construction at the top of `markFunctions`. -/
def buildLabelGraph (instrs : List Instr) (labels : List (String × Nat))
    (inverseLabels : List (Nat × List String)) : List (Nat × List Nat) :=
  let scanned := (List.range instrs.length).foldl
    (fun (st : List (Nat × List Nat) × Option Nat) i =>
      let st :=
        if ((mapGet inverseLabels i).getD []).length > 0 then
          let g := match st.2 with
            | some lastLabel => graphAppend st.1 lastLabel i
            | none => st.1
          (mapSet g i [], some i)
        else st
      match instrs.get? i with
      | some (.jmpI _ target) =>
          let g := match target with
            | .immOp (.varOp name) =>
                match mapGet labels name with
                | some targetIndex =>
                    match st.2 with
                    | some lastLabel => graphAppend st.1 lastLabel targetIndex
                    | none => st.1
                | none => st.1
            | _ => st.1
          (g, none)
      | some (.jccI _ _ target) =>
          let g := match target with
            | .immOp (.varOp name) =>
                match mapGet labels name with
                | some targetIndex =>
                    match st.2 with
                    | some lastLabel => graphAppend st.1 lastLabel targetIndex
                    | none => st.1
                | none => st.1
            | _ => st.1
          (g, st.2)
      | some (.generic "ret" _) => (st.1, none)
      | _ => st)
    ([], none)
  scanned.1

/-- The seeding scan: every resolved `call` target becomes a function entry. -/
def callSeeds (instrs : List Instr) (labels : List (String × Nat)) : List Nat :=
  instrs.foldl
    (fun acc instr =>
      match instr with
      | .generic "call" [.varOp name] =>
          match mapGet labels name with
          | some targetIndex => setAdd acc targetIndex
          | none => acc
      | _ => acc) []

/-- Mutable state of the discovery iteration. -/
structure MFSt where
  entries : List Nat
  visited : List Nat
  owned : List Nat
  changed : Bool
deriving DecidableEq

/-- The recursive `search(v, owner)`; fuel bounds the recursion depth.
    `visited.add(v)` happens before the eligibility test in the source and does
    not affect the `owned`/`entries` reads, so it is folded into each branch. -/
def mfSearch (graph : List (Nat × List Nat)) (writesFrom : List WriteData) :
    Nat → Nat → Nat → MFSt → MFSt
  | 0, _, _, st => st
  | fuel + 1, owner, v, st =>
      if v ≠ owner ∧ v ∈ st.entries then st
      else if v ∈ st.visited then st
      else if (writesFrom.getD v emptyWriteData).sp = SpVal.anyS ∨
              (writesFrom.getD v emptyWriteData).sp = SpVal.num 0 then
        if v ∈ st.owned ∧ v ∉ st.entries then
          { st with visited := setAdd st.visited v,
                    entries := setAdd st.entries v, changed := true }
        else
          ((mapGet graph v).getD []).foldl
            (fun s u => mfSearch graph writesFrom fuel owner u s)
            { st with visited := setAdd st.visited v, owned := setAdd st.owned v }
      else
        ((mapGet graph v).getD []).foldl
          (fun s u => mfSearch graph writesFrom fuel owner u s)
          { st with visited := setAdd st.visited v }

/-- The fold of one pass of the `while (changed)` loop: fresh `visited`/`owned`
    per iteration, `visited.clear()` per entry, searching from a snapshot of the
    current entries (`Array.from(functionEntries)`). -/
def mfIterState (graph : List (Nat × List Nat)) (writesFrom : List WriteData) (sfuel : Nat)
    (entries : List Nat) : MFSt :=
  entries.foldl
    (fun st e => mfSearch graph writesFrom sfuel e e { st with visited := [] })
    (MFSt.mk entries [] [] false)

/-- One pass of the `while (changed)` loop. -/
def mfIter (graph : List (Nat × List Nat)) (writesFrom : List WriteData) (sfuel : Nat)
    (entries : List Nat) : List Nat × Bool :=
  ((mfIterState graph writesFrom sfuel entries).entries,
   (mfIterState graph writesFrom sfuel entries).changed)

/-- The discovery loop with fuel (entries only grow, so it stabilises). -/
def mfLoop (graph : List (Nat × List Nat)) (writesFrom : List WriteData) (sfuel : Nat) :
    Nat → List Nat → List Nat
  | 0, entries => entries
  | fuel + 1, entries =>
      if (mfIter graph writesFrom sfuel entries).2 then
        mfLoop graph writesFrom sfuel fuel (mfIter graph writesFrom sfuel entries).1
      else (mfIter graph writesFrom sfuel entries).1

/-- `markFunctions`. -/
def markFunctions (instrs : List Instr) (labels : List (String × Nat))
    (inverseLabels : List (Nat × List String)) (writesFrom : List WriteData) : List Nat :=
  mfLoop (buildLabelGraph instrs labels inverseLabels) writesFrom
    (instrs.length + 2) (instrs.length + 2) (callSeeds instrs labels)

/-- The eligibility test of `markFunctions.search`: the abstract stack pointer
    at the node is `0` or `Any`. -/
def spEligible (writesFrom : List WriteData) (v : Nat) : Prop :=
  (writesFrom.getD v emptyWriteData).sp = SpVal.anyS ∨
  (writesFrom.getD v emptyWriteData).sp = SpVal.num 0

/-! ### Liveness analysis (`analyzeLiveness`)

`computeFunctionReturns` reads `livenessTable[callIndex + 1].liveBefore` with no
bounds check; when `callIndex` is the last instruction the subscript is
`undefined` and the field access throws, which the embedding reports as
`LivenessErr.indexOutOfRange`. -/

inductive LivenessErr
  | fuelOut
  | indexOutOfRange
deriving DecidableEq

structure LivenessPre where
  functionEntries : List Nat
  returnOriginMap : List (Nat × List Nat)
  callOriginMap : List (Nat × List Nat)
deriving DecidableEq

/-- `map.get(k)!.push(v)` with creation, as in the origin-map code. -/
def natMapAppend (m : List (Nat × List Nat)) (k v : Nat) : List (Nat × List Nat) :=
  match mapGet m k with
  | some l => mapSet m k (l ++ [v])
  | none => m ++ [(k, [v])]

/-- The scan that records `functionEntries`, `returnOriginMap` and `callOriginMap`. -/
def livenessPre (instrs : List Instr) (labels : List (String × Nat))
    (writesFrom : List WriteData) : LivenessPre :=
  (List.range instrs.length).foldl
    (fun pre i =>
      match instrs.get? i with
      | some (.generic "call" [.varOp name]) =>
          match mapGet labels name with
          | some targetIndex =>
              let pre :=
                if targetIndex ∈ pre.functionEntries then pre
                else
                  { pre with
                    functionEntries := pre.functionEntries ++ [targetIndex],
                    returnOriginMap :=
                      (writesFrom.getD targetIndex emptyWriteData).returnsAt.foldl
                        (fun m ret => natMapAppend m ret targetIndex) pre.returnOriginMap }
              { pre with callOriginMap := natMapAppend pre.callOriginMap targetIndex i }
          | none => pre
      | _ => pre)
    (LivenessPre.mk [] [] [])

/-- `computeFunctionReturns`; `none` models the uncaught `TypeError` when a
    `callIndex + 1` subscript falls outside the liveness table. -/
def computeFunctionReturns (writesFrom : List WriteData) (pre : LivenessPre)
    (table : List (List String)) : Option (List (Nat × List String)) :=
  pre.functionEntries.foldl
    (fun acc entry =>
      match acc with
      | none => none
      | some fr =>
          let functionWrites := (writesFrom.getD entry emptyWriteData).writes
          let inner := ((mapGet pre.callOriginMap entry).getD []).foldl
            (fun racc callIndex =>
              match racc with
              | none => none
              | some regs =>
                  match table.get? (callIndex + 1) with
                  | none => none
                  | some innerLiveness =>
                      some (innerLiveness.foldl
                        (fun rs reg => if mapHas functionWrites reg then setAdd rs reg else rs)
                        regs))
            (some [])
          match inner with
          | none => none
          | some regs => some (fr ++ [(entry, regs)]))
    (some [])

/-- The per-instruction `newLiveness` computation of the liveness sweep. -/
def livenessTransfer (instrs : List Instr) (labels : List (String × Nat))
    (writesFrom : List WriteData) (pre : LivenessPre) (fr : List (Nat × List String))
    (table : List (List String)) (i : Nat) (instr : Instr) : List String :=
  let livenessNext := table.getD (i + 1) []
  let newLiveness : Option (List String) :=
    match instr with
    | .movI _ _ => none
    | .jmpI mnemonic target =>
        match target with
        | .immOp (.varOp name) =>
            match mapGet labels name with
            | some targetIndex =>
                if mnemonic = "call" then
                  let functionWrites := keysOf (writesFrom.getD targetIndex emptyWriteData).writes
                  let preservedRegs := livenessNext.filter (fun r => decide (r ∉ functionWrites))
                  some (preservedRegs.foldl setAdd (table.getD targetIndex []))
                else some (table.getD targetIndex [])
            | none => none
        | _ => none
    | .jccI _ _ target =>
        let base := setOf livenessNext
        let base := (instructionIOPair instr).1.foldl setAdd base
        match target with
        | .immOp (.varOp name) =>
            match mapGet labels name with
            | some targetIndex => some ((table.getD targetIndex []).foldl setAdd base)
            | none =>
                if name.toLower = "ret" then
                  some (((mapGet pre.returnOriginMap i).getD []).foldl
                    (fun acc functionEntry =>
                      let functionWrites :=
                        keysOf (writesFrom.getD functionEntry emptyWriteData).writes
                      ((mapGet pre.callOriginMap functionEntry).getD []).foldl
                        (fun acc2 callIndex =>
                          if callIndex + 1 ≥ instrs.length then acc2
                          else
                            ((table.getD (callIndex + 1) []).filter
                                (fun r => decide (r ∈ functionWrites))).foldl setAdd acc2)
                        acc)
                    base)
                else some base
        | _ => some base
    | .generic mnemonic operands =>
        match mnemonic with
        | "ret" =>
            some (((mapGet pre.returnOriginMap i).getD []).foldl
              (fun acc functionEntry => ((mapGet fr functionEntry).getD []).foldl setAdd acc) [])
        | "call" =>
            match operands with
            | [.varOp name] =>
                match mapGet labels name with
                | some targetIndex =>
                    let functionWrites :=
                      keysOf (writesFrom.getD targetIndex emptyWriteData).writes
                    let preservedRegs := livenessNext.filter (fun r => decide (r ∉ functionWrites))
                    some (preservedRegs.foldl setAdd (table.getD targetIndex []))
                | none => none
            | _ => none
        | _ => none
  match newLiveness with
  | some l => l
  | none =>
      let base := decomposeCoverings livenessNext
      let base := (expandCoverings (instructionIOPair instr).2).foldl
        (fun acc r => setDelete acc r) base
      (instructionIOPair instr).1.foldl setAdd base

/-- One full reverse pass of the liveness loop, merging monotonically. -/
def livenessSweep (instrs : List Instr) (labels : List (String × Nat))
    (writesFrom : List WriteData) (pre : LivenessPre) (fr : List (Nat × List String))
    (table : List (List String)) : List (List String) × Bool :=
  (List.range instrs.length).reverse.foldl
    (fun acc i =>
      match instrs.get? i with
      | none => acc
      | some instr =>
          let newL := livenessTransfer instrs labels writesFrom pre fr acc.1 i instr
          let merged := newL.foldl
            (fun (m : List String × Bool) reg =>
              if reg ∈ m.1 then m else (m.1 ++ [reg], true))
            (acc.1.getD i [], false)
          (acc.1.set i merged.1, acc.2 || merged.2))
    (table, false)

/-- The liveness `while (changed)` loop: `functionReturns` is recomputed at the
    top of every iteration and once more after convergence. -/
def livenessLoop (instrs : List Instr) (labels : List (String × Nat))
    (writesFrom : List WriteData) (pre : LivenessPre) :
    Nat → List (List String) →
      Except LivenessErr (List (List String) × List (Nat × List String))
  | 0, _ => .error .fuelOut
  | fuel + 1, table =>
      match computeFunctionReturns writesFrom pre table with
      | none => .error .indexOutOfRange
      | some fr =>
          let swept := livenessSweep instrs labels writesFrom pre fr table
          if swept.2 then livenessLoop instrs labels writesFrom pre fuel swept.1
          else
            match computeFunctionReturns writesFrom pre swept.1 with
            | none => .error .indexOutOfRange
            | some fr2 => .ok (swept.1, fr2)

/-- `analyzeLiveness` with generous fuel (liveness sets only grow inside a
    finite universe, so concrete runs converge long before the fuel is spent). -/
def analyzeLiveness (instrs : List Instr) (labels : List (String × Nat))
    (writesFrom : List WriteData) :
    Except LivenessErr (List (List String) × List (Nat × List String)) :=
  livenessLoop instrs labels writesFrom (livenessPre instrs labels writesFrom)
    (instrs.length * 40 + 4) (List.replicate instrs.length [])

/-- The `liveBefore` set of a liveness result at an index. -/
def liveBeforeAt (r : Except LivenessErr (List (List String) × List (Nat × List String)))
    (i : Nat) : List String :=
  match r with
  | .ok res => res.1.getD i []
  | .error _ => []

/-! ### Concrete programs from the claims (in parsed form: `push`/`pop`/`ret`/
    `call`/`cmp` stay generic, `mov` and conditional jumps are structured). -/

/-- `PUSH BX ; POP AX ; RET`. -/
def progS2 : List Instr :=
  [.generic "push" [.regOp "bx"], .generic "pop" [.regOp "ax"], .generic "ret" []]

/-- `PUSH AX ; MOV SP, BX ; POP AX ; RET`. -/
def progS3 : List Instr :=
  [.generic "push" [.regOp "ax"], .movI (.regOp "sp") (.regOp "bx"),
   .generic "pop" [.regOp "ax"], .generic "ret" []]

/-- `MOV AX, AX ; RET`. -/
def progSelfMov : List Instr :=
  [.movI (.regOp "ax") (.regOp "ax"), .generic "ret" []]

/-- `CALL F ; RET ; F: POP AX ; RET` (label `F` attached to index 2). -/
def progPopEntry : List Instr :=
  [.generic "call" [.varOp "F"], .generic "ret" [],
   .generic "pop" [.regOp "ax"], .generic "ret" []]

def progPopEntryLabels : List (String × Nat) := [("F", 2)]

def progPopEntryInverseLabels : List (Nat × List String) := [(2, ["F"])]

/-- `CMP AX, BX ; JZ L ; MOV CX, DX ; L: RET` (label `L` attached to index 3). -/
def progS4 : List Instr :=
  [.generic "cmp" [.regOp "ax", .regOp "bx"],
   .jccI "jz" "z" (.immOp (.varOp "L")),
   .movI (.regOp "cx") (.regOp "dx"),
   .generic "ret" []]

def progS4Labels : List (String × Nat) := [("L", 3)]

/-- `F: RET ; CALL F`: a resolved `call` is the last instruction. -/
def progCallLast : List Instr :=
  [.generic "ret" [], .generic "call" [.varOp "F"]]

def progCallLastLabels : List (String × Nat) := [("F", 0)]

/-! ### Basic lemmas about the embedding -/

theorem asRegister_eq_none (operand : Operand) : asRegister operand = none := by
  cases operand <;> rfl

theorem destOf_eq_nil (operands : List Operand) : destOf operands = [] := by
  cases operands with
  | nil => rfl
  | cons op rest => simp [destOf, asRegister_eq_none]

theorem mem_setAdd {α : Type} [DecidableEq α] {s : List α} {a x : α} :
    x ∈ setAdd s a ↔ x ∈ s ∨ x = a := by
  by_cases h : a ∈ s
  · simp only [setAdd, if_pos h]
    constructor
    · exact fun hx => Or.inl hx
    · rintro (hx | rfl) <;> [exact hx; exact h]
  · simp [setAdd, if_neg h]

theorem mem_setDelete {α : Type} [DecidableEq α] {s : List α} {a x : α} :
    x ∈ setDelete s a ↔ x ∈ s ∧ x ≠ a := by
  simp [setDelete]

theorem mapGet_some_mem {κ β : Type} [DecidableEq κ] {m : List (κ × β)} {k : κ} {v : β}
    (h : mapGet m k = some v) : (k, v) ∈ m := by
  unfold mapGet at h
  cases hf : m.find? (fun p => decide (p.1 = k)) with
  | none => rw [hf] at h; simp at h
  | some q =>
      rw [hf] at h
      have hq : q ∈ m := List.mem_of_find?_eq_some hf
      have h1 : q.1 = k := by
        have hpk := List.find?_some hf
        simpa using hpk
      have h2 : q.2 = v := by
        simp only [Option.map_some'] at h
        exact Option.some.inj h
      have hqe : (k, v) = q := by
        rw [← h1, ← h2]
      rw [hqe]
      exact hq

/-! ### C1 -/

/-- C1: for `PUSH BX ; POP AX ; RET` the converged summary at index 0 has
    `returnsAt = {2}` and `sp = 0`, but its `writes` map is empty — in
    particular `ax` is not bound to `Reg(bx)` — because `asRegister` discards
    `operand.reg` and returns `undefined`, so the push/pop restoration never
    fires. This evaluates the code at the claim's failing input. -/
theorem c1_pushPopRet_eval :
    ((analyzeWrites progS2 []).getD 0 emptyWriteData).returnsAt = [2] ∧
    ((analyzeWrites progS2 []).getD 0 emptyWriteData).sp = SpVal.num 0 ∧
    ((analyzeWrites progS2 []).getD 0 emptyWriteData).writes = [] ∧
    mapGet ((analyzeWrites progS2 []).getD 0 emptyWriteData).writes "ax" = none := by
  decide

/-! ### C2 -/

/-- C2 counterexample: for `PUSH AX ; MOV SP, BX ; POP AX ; RET` the converged
    summary at index 0 does not have `sp = Any`, and does not bind `ax` to
    `Any`: `mov` to `sp` yields the empty no-return summary, which the `push`
    propagates. -/
theorem c2_stackClobber_counterexample :
    ((analyzeWrites progS3 []).getD 0 emptyWriteData).sp ≠ SpVal.anyS ∧
    mapGet ((analyzeWrites progS3 []).getD 0 emptyWriteData).writes "ax" ≠ some WVal.anyW := by
  decide

/-- C2 amended: for `PUSH AX ; MOV SP, BX ; POP AX ; RET` the converged summary
    at index 0 is the no-return summary: `returnsAt = ∅`, `writes = ∅`, `sp = 0`. -/
theorem c2_stackClobber_amended :
    (analyzeWrites progS3 []).getD 0 emptyWriteData = ⟨[], [], SpVal.num 0⟩ := by
  decide

/-! ### C3 -/

/-- C3 counterexample: for `MOV AX, AX ; RET` the converged summary at index 0
    binds `ax` to `Reg(ax)` — a key mapped to itself — because `seqWrites`
    (unlike `popWrites`) never deletes self-bindings. -/
theorem c3_selfBinding_counterexample :
    mapGet ((analyzeWrites progSelfMov []).getD 0 emptyWriteData).writes "ax"
      = some (WVal.regW "ax") := by
  decide

/-! ### C4 -/

/-- C4 counterexample: for `CALL F ; RET ; F: POP AX ; RET`, index 2 is a
    discovered function entry (it is a call target) while its converged write
    summary has `sp = 2`, which is neither `0` nor `Any`. -/
theorem c4_entry_sp_counterexample :
    2 ∈ markFunctions progPopEntry progPopEntryLabels progPopEntryInverseLabels
          (analyzeWrites progPopEntry progPopEntryLabels) ∧
    ((analyzeWrites progPopEntry progPopEntryLabels).getD 2 emptyWriteData).sp
      = SpVal.num 2 := by
  decide

/-! ### C6 -/

/-- C6: for `xor ax, ax` the instruction IO model returns an empty uses set,
    but its defines set is `{flags}` only — the destination register is missing
    because `dest()` relies on `asRegister`, which always returns `undefined`.
    This evaluates the code at the claim's failing input. -/
theorem c6_xorSelf_eval :
    instructionIOPair (.generic "xor" [.regOp "ax", .regOp "ax"]) = ([], ["flags"]) := by
  decide

/-! ### C7 -/

/-- C7: for `CMP AX, BX ; JZ L ; MOV CX, DX ; L: RET` the liveness fixpoint
    converges (the loop exits with no change), the live-before set at the `cmp`
    contains `ax` and `bx` but not `zf`, and the live-before set at the `jz`
    contains `zf`. -/
theorem c7_flagLiveness :
    (analyzeLiveness progS4 progS4Labels (analyzeWrites progS4 progS4Labels)).isOk = true ∧
    "ax" ∈ liveBeforeAt (analyzeLiveness progS4 progS4Labels (analyzeWrites progS4 progS4Labels)) 0 ∧
    "bx" ∈ liveBeforeAt (analyzeLiveness progS4 progS4Labels (analyzeWrites progS4 progS4Labels)) 0 ∧
    "zf" ∉ liveBeforeAt (analyzeLiveness progS4 progS4Labels (analyzeWrites progS4 progS4Labels)) 0 ∧
    "zf" ∈ liveBeforeAt (analyzeLiveness progS4 progS4Labels (analyzeWrites progS4 progS4Labels)) 1 := by
  decide

/-! ### C8 -/

/-- C8: when a `call` with a resolved label target is the last instruction
    (`F: RET ; CALL F`), `computeFunctionReturns` dereferences
    `livenessTable[callIndex + 1]`, which is out of range, so the liveness
    analysis aborts with the index-out-of-range error instead of completing.
    This evaluates the code at the claim's failing input. -/
theorem c8_callLast_throws :
    analyzeLiveness progCallLast progCallLastLabels
        (analyzeWrites progCallLast progCallLastLabels)
      = .error LivenessErr.indexOutOfRange := by
  rfl

/-! ### C3 amended -/

/-- C3 amended: every binding `k → Reg(r)` produced by the pop-through
    combinator `popWrites` satisfies `k ≠ r` — its final pass deletes any
    key bound to its own name. (The per-index claim fails because `seqWrites`,
    used for `mov`, keeps self-bindings; see the counterexample.) -/
theorem c3_popWrites_no_self_binding (writeSrc : WriteData) (offset : Int)
    (resultReg : Option String) (k r : String)
    (h : mapGet (popWrites writeSrc offset resultReg).writes k = some (WVal.regW r)) :
    k ≠ r := by
  have hshape : (popWrites writeSrc offset resultReg).writes = [] ∨
      ∃ m : List (String × WVal),
        (popWrites writeSrc offset resultReg).writes
          = m.filter (fun kv => decide (¬ kv.2 = WVal.regW kv.1)) := by
    unfold popWrites
    by_cases hret : writeSrc.returnsAt = []
    · rw [if_pos hret]; exact Or.inl rfl
    · rw [if_neg hret]; exact Or.inr ⟨_, rfl⟩
  rcases hshape with hnil | ⟨m, hm⟩
  · rw [hnil] at h
    simp [mapGet] at h
  · rw [hm] at h
    have hmem := mapGet_some_mem h
    rw [List.mem_filter] at hmem
    have hpred := hmem.2
    simp only [decide_eq_true_eq] at hpred
    intro hkr
    exact hpred (by rw [hkr])

theorem c3_popWrites_no_self_binding_witness :
    mapGet (popWrites ⟨[("bx", WVal.regW "ax")], [0], SpVal.num 0⟩ 2 none).writes "bx"
        = some (WVal.regW "ax") ∧ "bx" ≠ "ax" :=
  ⟨by decide,
   c3_popWrites_no_self_binding ⟨[("bx", WVal.regW "ax")], [0], SpVal.num 0⟩ 2 none "bx" "ax"
     (by decide)⟩

/-! ### C4 amended -/

theorem foldl_entries_sub {α : Type} (P : Nat → Prop) (op : MFSt → α → MFSt) (l : List α)
    (hop : ∀ (st : MFSt) (a : α), (∀ x ∈ st.entries, P x) → ∀ x ∈ (op st a).entries, P x) :
    ∀ (init : MFSt), (∀ x ∈ init.entries, P x) → ∀ x ∈ (l.foldl op init).entries, P x := by
  induction l with
  | nil => intro init h; simpa using h
  | cons a l ih =>
      intro init h
      simp only [List.foldl_cons]
      exact ih _ (hop init a h)

theorem mfSearch_entries_sub (graph : List (Nat × List Nat)) (wf : List WriteData)
    (P : Nat → Prop) (hP : ∀ v, spEligible wf v → P v) :
    ∀ (fuel owner v : Nat) (st : MFSt), (∀ x ∈ st.entries, P x) →
      ∀ x ∈ (mfSearch graph wf fuel owner v st).entries, P x := by
  intro fuel
  induction fuel with
  | zero =>
      intro owner v st h
      simpa [mfSearch] using h
  | succ n ih =>
      intro owner v st h
      rw [mfSearch]
      by_cases h1 : v ≠ owner ∧ v ∈ st.entries
      · rw [if_pos h1]; exact h
      · rw [if_neg h1]
        by_cases h2 : v ∈ st.visited
        · rw [if_pos h2]; exact h
        · rw [if_neg h2]
          by_cases h3 :
              (wf.getD v emptyWriteData).sp = SpVal.anyS ∨
              (wf.getD v emptyWriteData).sp = SpVal.num 0
          · rw [if_pos h3]
            by_cases h4 : v ∈ st.owned ∧ v ∉ st.entries
            · rw [if_pos h4]
              intro x hx
              simp only [mem_setAdd] at hx
              rcases hx with hx | rfl
              · exact h x hx
              · exact hP x h3
            · rw [if_neg h4]
              exact foldl_entries_sub P _ _ (fun st' u hst' => ih owner u st' hst') _ h
          · rw [if_neg h3]
            exact foldl_entries_sub P _ _ (fun st' u hst' => ih owner u st' hst') _ h

theorem mfLoop_entries_sub (graph : List (Nat × List Nat)) (wf : List WriteData)
    (P : Nat → Prop) (hP : ∀ v, spEligible wf v → P v) (sfuel : Nat) :
    ∀ (fuel : Nat) (entries : List Nat), (∀ x ∈ entries, P x) →
      ∀ x ∈ mfLoop graph wf sfuel fuel entries, P x := by
  intro fuel
  induction fuel with
  | zero => intro entries h; simpa [mfLoop] using h
  | succ n ih =>
      intro entries h
      rw [mfLoop]
      have hiter : ∀ x ∈ (mfIter graph wf sfuel entries).1, P x := by
        unfold mfIter mfIterState
        exact foldl_entries_sub P
          (fun st e => mfSearch graph wf sfuel e e { st with visited := [] }) entries
          (fun st' e hst' => mfSearch_entries_sub graph wf P hP sfuel e e _ hst')
          (MFSt.mk entries [] [] false) h
      by_cases hch : (mfIter graph wf sfuel entries).2 = true
      · rw [if_pos hch]; exact ih _ hiter
      · rw [if_neg hch]; exact hiter

/-- C4 amended: every index in the discovered entry set is either the target of
    some resolved `call` (a seed, added without any stack-pointer check) or has
    a converged stack-pointer delta in `{0, Any}`; the original claim fails on
    seeds, see the counterexample. -/
theorem c4_markFunctions_entries (instrs : List Instr) (labels : List (String × Nat))
    (inverseLabels : List (Nat × List String)) (writesFrom : List WriteData) (e : Nat)
    (h : e ∈ markFunctions instrs labels inverseLabels writesFrom) :
    e ∈ callSeeds instrs labels ∨
      (writesFrom.getD e emptyWriteData).sp = SpVal.anyS ∨
      (writesFrom.getD e emptyWriteData).sp = SpVal.num 0 := by
  have := mfLoop_entries_sub (buildLabelGraph instrs labels inverseLabels) writesFrom
    (fun v => v ∈ callSeeds instrs labels ∨ spEligible writesFrom v)
    (fun v hv => Or.inr hv)
    (instrs.length + 2) (instrs.length + 2) (callSeeds instrs labels)
    (fun x hx => Or.inl hx) e h
  unfold spEligible at this
  exact this

theorem c4_markFunctions_entries_witness :
    (2 ∈ markFunctions progPopEntry progPopEntryLabels progPopEntryInverseLabels
        (analyzeWrites progPopEntry progPopEntryLabels)) ∧
    (2 ∈ callSeeds progPopEntry progPopEntryLabels ∨
      ((analyzeWrites progPopEntry progPopEntryLabels).getD 2 emptyWriteData).sp = SpVal.anyS ∨
      ((analyzeWrites progPopEntry progPopEntryLabels).getD 2 emptyWriteData).sp = SpVal.num 0) :=
  ⟨by decide,
   c4_markFunctions_entries progPopEntry progPopEntryLabels progPopEntryInverseLabels
     (analyzeWrites progPopEntry progPopEntryLabels) 2 (by decide)⟩

/-! ### C5 -/

/-- C5 counterexample: on the text `"a\x1Ab\nc"` the lexer keeps the newline
    and the following line (`"a\nc"`); it does not discard everything after the
    first control-Z byte, which would have left just `"a"`. The `.` of the
    `/\x1A.*/g` replacement stops at each line terminator. -/
theorem c5_trimSub_counterexample :
    trimSub ['a', '\x1A', 'b', '\n', 'c'] = ['a', '\n', 'c'] ∧
    trimSub ['a', '\x1A', 'b', '\n', 'c'] ≠ ['a'] := by
  constructor
  · rfl
  · intro h; exact absurd h (by decide)

theorem truncLine_nil : truncLine [] = [] := rfl

theorem truncLine_cons_z (l : List Char) : truncLine ('\x1A' :: l) = [] := by
  simp [truncLine, List.takeWhile_cons]

theorem truncLine_cons_ne {c : Char} (h : c ≠ '\x1A') (l : List Char) :
    truncLine (c :: l) = c :: truncLine l := by
  simp [truncLine, List.takeWhile_cons, h]

theorem tailJoinTrunc_cons (t : Char) (l : List Char) (ls : List (Char × List Char)) :
    tailJoinTrunc ((t, l) :: ls) = t :: (truncLine l ++ tailJoinTrunc ls) := rfl

theorem isLineTerm_ne_z {c : Char} (h : isLineTerm c = true) : c ≠ '\x1A' := by
  intro hc
  rw [hc] at h
  exact absurd h (by decide)

/-- C5 amended: for every input text, the lexer truncates each line at that
    line's first control-Z byte, keeping every line terminator and all
    subsequent lines (per-line truncation, not whole-text truncation). -/
theorem c5_trimSub_per_line (cs : List Char) : trimSub cs = lineTrimSpec cs := by
  have main : ∀ cs : List Char,
      trimSub cs = truncLine (splitLinesT cs).1 ++ tailJoinTrunc (splitLinesT cs).2 ∧
      trimSubDrop cs = tailJoinTrunc (splitLinesT cs).2 := by
    intro cs
    induction cs with
    | nil => constructor <;> rfl
    | cons c cs ih =>
        constructor
        · by_cases hz : c = '\x1A'
          · subst hz
            rw [trimSub, if_pos rfl, ih.2, splitLinesT,
              if_neg (by decide : ¬ isLineTerm '\x1A' = true)]
            rw [truncLine_cons_z, List.nil_append]
          · rw [trimSub, if_neg hz, ih.1, splitLinesT]
            by_cases hterm : isLineTerm c = true
            · rw [if_pos hterm]
              rw [show ((([] : List Char),
                    (c, (splitLinesT cs).1) :: (splitLinesT cs).2)).1 = [] from rfl]
              rw [show ((([] : List Char),
                    (c, (splitLinesT cs).1) :: (splitLinesT cs).2)).2
                  = (c, (splitLinesT cs).1) :: (splitLinesT cs).2 from rfl]
              rw [truncLine_nil, List.nil_append, tailJoinTrunc_cons]
            · rw [if_neg hterm]
              rw [show ((c :: (splitLinesT cs).1, (splitLinesT cs).2)).1
                  = c :: (splitLinesT cs).1 from rfl]
              rw [show ((c :: (splitLinesT cs).1, (splitLinesT cs).2)).2
                  = (splitLinesT cs).2 from rfl]
              rw [truncLine_cons_ne hz, List.cons_append]
        · by_cases hterm : isLineTerm c = true
          · rw [trimSubDrop, if_pos hterm, ih.1, splitLinesT, if_pos hterm]
            rw [show ((([] : List Char),
                  (c, (splitLinesT cs).1) :: (splitLinesT cs).2)).2
                = (c, (splitLinesT cs).1) :: (splitLinesT cs).2 from rfl]
            rw [tailJoinTrunc_cons]
          · rw [trimSubDrop, if_neg hterm, ih.2, splitLinesT, if_neg hterm]
  exact (main cs).1

/-! ### C10: membership characterizations of the register-set algebra -/

theorem mem_foldl_step {α γ : Type} (step : List γ → α → List γ) (P : α → γ → Prop)
    (hstep : ∀ (acc : List γ) (a : α) (x : γ), x ∈ step acc a ↔ x ∈ acc ∨ P a x) :
    ∀ (l : List α) (init : List γ) (x : γ),
      x ∈ l.foldl step init ↔ x ∈ init ∨ ∃ a ∈ l, P a x := by
  intro l
  induction l with
  | nil => intro init x; simp
  | cons a l ih =>
      intro init x
      simp only [List.foldl_cons]
      rw [ih, hstep]
      constructor
      · rintro ((h | h) | ⟨b, hb, h⟩)
        · exact Or.inl h
        · exact Or.inr ⟨a, List.mem_cons_self a l, h⟩
        · exact Or.inr ⟨b, List.mem_cons_of_mem a hb, h⟩
      · rintro (h | ⟨b, hb, h⟩)
        · exact Or.inl (Or.inl h)
        · rcases List.mem_cons.mp hb with rfl | hb'
          · exact Or.inl (Or.inr h)
          · exact Or.inr ⟨b, hb', h⟩

theorem mem_foldl_setAdd {γ : Type} [DecidableEq γ] (l init : List γ) (x : γ) :
    x ∈ l.foldl setAdd init ↔ x ∈ init ∨ x ∈ l := by
  rw [mem_foldl_step setAdd (fun a x => x = a) (fun acc a x => mem_setAdd) l init x]
  constructor
  · rintro (h | ⟨a, ha, rfl⟩)
    · exact Or.inl h
    · exact Or.inr ha
  · rintro (h | h)
    · exact Or.inl h
    · exact Or.inr ⟨x, h, rfl⟩

theorem mem_setOf {l : List String} {x : String} : x ∈ setOf l ↔ x ∈ l := by
  unfold setOf
  rw [mem_foldl_setAdd]
  simp

theorem mem_expandSubRegs (S : List String) (x : String) :
    x ∈ expandSubRegs S ↔ x ∈ S ∨ ∃ r ∈ S, ∃ p ∈ subRegsOf r, x = p.2 := by
  unfold expandSubRegs
  rw [mem_foldl_step _ (fun r x => x = r ∨ ∃ p ∈ subRegsOf r, x = p.2) ?_ S [] x]
  · constructor
    · rintro (h | ⟨r, hr, rfl | hq⟩)
      · exact absurd h (List.not_mem_nil x)
      · exact Or.inl hr
      · exact Or.inr ⟨r, hr, hq⟩
    · rintro (h | ⟨r, hr, hq⟩)
      · exact Or.inr ⟨x, h, Or.inl rfl⟩
      · exact Or.inr ⟨r, hr, Or.inr hq⟩
  · intro acc r y
    rw [mem_foldl_step (fun a p => setAdd a p.2) (fun p y => y = p.2)
      (fun acc p y => mem_setAdd) (subRegsOf r) (setAdd acc r) y]
    rw [mem_setAdd]
    tauto

/-- The values delivered by `subRegsOf` all lie in the fixed list `ALLSUBVALS`. -/
theorem subRegsOf_vals (r : String) (p : String × String) (hp : p ∈ subRegsOf r) :
    p.2 ∈ ALLSUBVALS := by
  unfold subRegsOf at hp
  cases hm : mapGet SUB_REGS_LIST r with
  | none => rw [hm] at hp; simp at hp
  | some L =>
      rw [hm] at hp
      simp only [Option.getD_some] at hp
      have hmem := mapGet_some_mem hm
      have hL : L ∈ SUB_REGS_LIST.map (fun q => q.2) :=
        List.mem_map_of_mem (fun q => q.2) hmem
      simp only [SUB_REGS_LIST, List.map_cons, List.map_nil, List.mem_cons,
        List.not_mem_nil, or_false] at hL
      rcases hL with h | h | h | h | h | h <;> (subst h; fin_cases hp <;> decide)

theorem mem_covFold (L : List (String × List String)) :
    ∀ (hd : ∀ c ∈ L, ∀ c' ∈ L, c.1 ∉ c'.2) (init : List String) (x : String),
      x ∈ L.foldl
          (fun acc c => if c.2.all (fun sub => decide (sub ∈ acc)) then setAdd acc c.1 else acc)
          init
        ↔ x ∈ init ∨ ∃ c ∈ L, x = c.1 ∧ ∀ p ∈ c.2, p ∈ init := by
  induction L with
  | nil => intro _ init x; simp
  | cons c0 L ih =>
      intro hd init x
      have hd' : ∀ c ∈ L, ∀ c' ∈ L, c.1 ∉ c'.2 := fun c hc c' hc' =>
        hd c (List.mem_cons_of_mem c0 hc) c' (List.mem_cons_of_mem c0 hc')
      have hc0L : ∀ c ∈ L, c0.1 ∉ c.2 := fun c hc =>
        hd c0 (List.mem_cons_self c0 L) c (List.mem_cons_of_mem c0 hc)
      have hLc0 : ∀ c ∈ L, c.1 ∉ c0.2 := fun c hc =>
        hd c (List.mem_cons_of_mem c0 hc) c0 (List.mem_cons_self c0 L)
      simp only [List.foldl_cons]
      by_cases hc : c0.2.all (fun sub => decide (sub ∈ init)) = true
      · rw [if_pos hc]
        have hcall : ∀ p ∈ c0.2, p ∈ init := by
          intro p hp
          have := List.all_eq_true.mp hc p hp
          exact of_decide_eq_true this
        rw [ih hd' (setAdd init c0.1) x]
        have hparts : ∀ c ∈ L, ((∀ p ∈ c.2, p ∈ setAdd init c0.1) ↔ ∀ p ∈ c.2, p ∈ init) := by
          intro c hcL
          constructor
          · intro h p hp
            rcases mem_setAdd.mp (h p hp) with h' | rfl
            · exact h'
            · exact absurd hp (hc0L c hcL)
          · intro h p hp
            exact mem_setAdd.mpr (Or.inl (h p hp))
        constructor
        · rintro (hx | ⟨c, hcL, rfl, hps⟩)
          · rcases mem_setAdd.mp hx with h' | rfl
            · exact Or.inl h'
            · exact Or.inr ⟨c0, List.mem_cons_self c0 L, rfl, hcall⟩
          · exact Or.inr ⟨c, List.mem_cons_of_mem c0 hcL, rfl, (hparts c hcL).mp hps⟩
        · rintro (hx | ⟨c, hcL, rfl, hps⟩)
          · exact Or.inl (mem_setAdd.mpr (Or.inl hx))
          · rcases List.mem_cons.mp hcL with rfl | hcL'
            · exact Or.inl (mem_setAdd.mpr (Or.inr rfl))
            · exact Or.inr ⟨c, hcL', rfl, (hparts c hcL').mpr hps⟩
      · rw [if_neg hc]
        rw [ih hd' init x]
        have hnall : ¬ ∀ p ∈ c0.2, p ∈ init := by
          intro hps
          exact hc (List.all_eq_true.mpr (fun p hp => decide_eq_true (hps p hp)))
        constructor
        · rintro (hx | ⟨c, hcL, rfl, hps⟩)
          · exact Or.inl hx
          · exact Or.inr ⟨c, List.mem_cons_of_mem c0 hcL, rfl, hps⟩
        · rintro (hx | ⟨c, hcL, rfl, hps⟩)
          · exact Or.inl hx
          · rcases List.mem_cons.mp hcL with rfl | hcL'
            · exact absurd hps hnall
            · exact Or.inr ⟨c, hcL', rfl, hps⟩

theorem mem_decFold (L : List (String × List String)) :
    ∀ (hd : ∀ c ∈ L, ∀ c' ∈ L, c.1 ∉ c'.2)
      (hnd : L.Pairwise (fun c c' => c.1 ≠ c'.1)) (init : List String) (x : String),
      x ∈ L.foldl
          (fun acc c => if c.1 ∈ acc then c.2.foldl setAdd (setDelete acc c.1) else acc) init
        ↔ (x ∈ init ∧ ∀ c ∈ L, x ≠ c.1) ∨ ∃ c ∈ L, c.1 ∈ init ∧ x ∈ c.2 := by
  induction L with
  | nil => intro _ _ init x; simp
  | cons c0 L ih =>
      intro hd hnd init x
      have hd' : ∀ c ∈ L, ∀ c' ∈ L, c.1 ∉ c'.2 := fun c hc c' hc' =>
        hd c (List.mem_cons_of_mem c0 hc) c' (List.mem_cons_of_mem c0 hc')
      have hnd' : L.Pairwise (fun c c' => c.1 ≠ c'.1) := (List.pairwise_cons.mp hnd).2
      have hne : ∀ c ∈ L, c0.1 ≠ c.1 := (List.pairwise_cons.mp hnd).1
      have h01 : c0.1 ∉ c0.2 := hd c0 (List.mem_cons_self c0 L) c0 (List.mem_cons_self c0 L)
      have hLc0 : ∀ c ∈ L, c.1 ∉ c0.2 := fun c hc =>
        hd c (List.mem_cons_of_mem c0 hc) c0 (List.mem_cons_self c0 L)
      have hc0L : ∀ c ∈ L, c0.1 ∉ c.2 := fun c hc =>
        hd c0 (List.mem_cons_self c0 L) c (List.mem_cons_of_mem c0 hc)
      simp only [List.foldl_cons]
      by_cases hc : c0.1 ∈ init
      · rw [if_pos hc]
        have hacc1 : ∀ y, y ∈ c0.2.foldl setAdd (setDelete init c0.1) ↔
            (y ∈ init ∧ y ≠ c0.1) ∨ y ∈ c0.2 := by
          intro y
          rw [mem_foldl_setAdd, mem_setDelete]
        rw [ih hd' hnd' (c0.2.foldl setAdd (setDelete init c0.1)) x]
        have hEx : (∃ c ∈ L, c.1 ∈ c0.2.foldl setAdd (setDelete init c0.1) ∧ x ∈ c.2) ↔
            ∃ c ∈ L, c.1 ∈ init ∧ x ∈ c.2 := by
          constructor
          · rintro ⟨c, hcL, hmem, hx⟩
            rcases (hacc1 c.1).mp hmem with ⟨hin, _⟩ | hin
            · exact ⟨c, hcL, hin, hx⟩
            · exact absurd hin (hLc0 c hcL)
          · rintro ⟨c, hcL, hin, hx⟩
            exact ⟨c, hcL, (hacc1 c.1).mpr (Or.inl ⟨hin, (hne c hcL).symm⟩), hx⟩
        rw [hEx]
        have hCD : x ∈ c0.2 → ∀ c ∈ L, x ≠ c.1 := by
          intro hx c hcL heq
          exact hLc0 c hcL (heq ▸ hx)
        have hCne : x ∈ c0.2 → x ≠ c0.1 := by
          intro hx heq
          exact h01 (heq ▸ hx)
        constructor
        · rintro (⟨hx1, hD⟩ | hE)
          · rcases (hacc1 x).mp hx1 with ⟨hin, hnec0⟩ | hin
            · refine Or.inl ⟨hin, ?_⟩
              intro c hcc
              rcases List.mem_cons.mp hcc with rfl | hcL
              · exact hnec0
              · exact hD c hcL
            · exact Or.inr ⟨c0, List.mem_cons_self c0 L, hc, hin⟩
          · rcases hE with ⟨c, hcL, hin, hx⟩
            exact Or.inr ⟨c, List.mem_cons_of_mem c0 hcL, hin, hx⟩
        · rintro (⟨hin, hD⟩ | ⟨c, hcc, hin, hx⟩)
          · refine Or.inl ⟨(hacc1 x).mpr (Or.inl ⟨hin, hD c0 (List.mem_cons_self c0 L)⟩), ?_⟩
            intro c hcL
            exact hD c (List.mem_cons_of_mem c0 hcL)
          · rcases List.mem_cons.mp hcc with rfl | hcL
            · exact Or.inl ⟨(hacc1 x).mpr (Or.inr hx), hCD hx⟩
            · exact Or.inr ⟨c, hcL, hin, hx⟩
      · rw [if_neg hc]
        rw [ih hd' hnd' init x]
        have hAne : x ∈ init → x ≠ c0.1 := by
          intro hx heq
          exact hc (heq ▸ hx)
        constructor
        · rintro (⟨hin, hD⟩ | ⟨c, hcL, hin, hx⟩)
          · refine Or.inl ⟨hin, ?_⟩
            intro c hcc
            rcases List.mem_cons.mp hcc with rfl | hcL
            · exact hAne hin
            · exact hD c hcL
          · exact Or.inr ⟨c, List.mem_cons_of_mem c0 hcL, hin, hx⟩
        · rintro (⟨hin, hD⟩ | ⟨c, hcc, hin, hx⟩)
          · exact Or.inl ⟨hin, fun c hcL => hD c (List.mem_cons_of_mem c0 hcL)⟩
          · rcases List.mem_cons.mp hcc with rfl | hcL
            · exact absurd hin hc
            · exact Or.inr ⟨c, hcL, hin, hx⟩

theorem mem_expandCoverings (S : List String) (x : String) :
    x ∈ expandCoverings S ↔
      x ∈ expandSubRegs S ∨
        ∃ c ∈ REG_COVERINGS, x = c.1 ∧ ∀ p ∈ c.2, p ∈ expandSubRegs S := by
  unfold expandCoverings
  exact mem_covFold REG_COVERINGS (by decide) (expandSubRegs S) x

theorem mem_decomposeCoverings (S : List String) (x : String) :
    x ∈ decomposeCoverings S ↔
      (x ∈ S ∧ ∀ c ∈ REG_COVERINGS, x ≠ c.1) ∨
        ∃ c ∈ REG_COVERINGS, c.1 ∈ S ∧ x ∈ c.2 := by
  unfold decomposeCoverings
  rw [mem_decFold REG_COVERINGS (by decide) (by decide) (setOf S) x]
  simp only [mem_setOf]

theorem mem_expandSubRegs_decompose (S : List String) (x : String) :
    x ∈ expandSubRegs (decomposeCoverings S) ↔
      x ∈ expandSubRegs S ∧ ∀ c ∈ REG_COVERINGS, x ≠ c.1 := by
  have d3 : ∀ c ∈ REG_COVERINGS, ∀ q ∈ c.2, subRegsOf q = [] := by decide
  have d4 : ∀ c ∈ REG_COVERINGS, ∀ q ∈ c.2, ∃ p ∈ subRegsOf c.1, q = p.2 := by decide
  have d5 : ∀ c ∈ REG_COVERINGS, ∀ p ∈ subRegsOf c.1, p.2 ∈ c.2 := by decide
  have d6 : ∀ c ∈ REG_COVERINGS, ∀ q ∈ c.2, ∀ c' ∈ REG_COVERINGS, q ≠ c'.1 := by decide
  have d8 : ∀ y ∈ ALLSUBVALS, ∀ c ∈ REG_COVERINGS, y ≠ c.1 := by decide
  rw [mem_expandSubRegs, mem_expandSubRegs]
  simp only [mem_decomposeCoverings]
  constructor
  · rintro (hD | ⟨r, hrD, p, hp, rfl⟩)
    · rcases hD with ⟨hxS, hns⟩ | ⟨c, hcCov, hcS, hxc⟩
      · exact ⟨Or.inl hxS, hns⟩
      · exact ⟨Or.inr ⟨c.1, hcS, d4 c hcCov x hxc⟩, d6 c hcCov x hxc⟩
    · rcases hrD with ⟨hrS, _⟩ | ⟨c, hcCov, _, hrc⟩
      · exact ⟨Or.inr ⟨r, hrS, p, hp, rfl⟩, d8 p.2 (subRegsOf_vals r p hp)⟩
      · rw [d3 c hcCov r hrc] at hp
        exact absurd hp (List.not_mem_nil p)
  · rintro ⟨hES, hns⟩
    rcases hES with hxS | ⟨r, hrS, p, hp, rfl⟩
    · exact Or.inl (Or.inl ⟨hxS, hns⟩)
    · by_cases hrSup : ∃ c ∈ REG_COVERINGS, r = c.1
      · rcases hrSup with ⟨c, hcCov, rfl⟩
        exact Or.inl (Or.inr ⟨c, hcCov, hrS, d5 c hcCov p hp⟩)
      · refine Or.inr ⟨r, Or.inl ⟨hrS, fun c hcCov heq => hrSup ⟨c, hcCov, heq⟩⟩, p, hp, rfl⟩

/-- C10: for every set of register names, decomposing whole-covering
    super-registers into their parts and then expanding coverings yields the
    same set (elementwise) as expanding coverings directly:
    `expandCoverings (decomposeCoverings S) = expandCoverings S` as sets. -/
theorem c10_expandCoverings_decomposeCoverings (S : List String) (x : String) :
    x ∈ expandCoverings (decomposeCoverings S) ↔ x ∈ expandCoverings S := by
  have d4 : ∀ c ∈ REG_COVERINGS, ∀ q ∈ c.2, ∃ p ∈ subRegsOf c.1, q = p.2 := by decide
  have d8 : ∀ y ∈ ALLSUBVALS, ∀ c ∈ REG_COVERINGS, y ≠ c.1 := by decide
  rw [mem_expandCoverings, mem_expandCoverings]
  have hsupfull : ∀ c ∈ REG_COVERINGS, c.1 ∈ expandSubRegs S →
      ∀ p ∈ c.2, p ∈ expandSubRegs S := by
    intro c hcCov hmem q hq
    rcases (mem_expandSubRegs S c.1).mp hmem with hS | ⟨r, hrS, p, hp, heq⟩
    · exact (mem_expandSubRegs S q).mpr (Or.inr ⟨c.1, hS, d4 c hcCov q hq⟩)
    · exact absurd (heq ▸ rfl : c.1 = p.2) fun hh =>
        d8 p.2 (subRegsOf_vals r p hp) c hcCov (hh ▸ rfl)
  have hparts : ∀ c ∈ REG_COVERINGS,
      ((∀ p ∈ c.2, p ∈ expandSubRegs (decomposeCoverings S)) ↔
        ∀ p ∈ c.2, p ∈ expandSubRegs S) := by
    intro c hcCov
    constructor
    · intro h p hp
      exact ((mem_expandSubRegs_decompose S p).mp (h p hp)).1
    · intro h p hp
      rw [mem_expandSubRegs_decompose]
      refine ⟨h p hp, ?_⟩
      intro c' hc' heq
      have d6 : ∀ c ∈ REG_COVERINGS, ∀ q ∈ c.2, ∀ c' ∈ REG_COVERINGS, q ≠ c'.1 := by decide
      exact d6 c hcCov p hp c' hc' heq
  constructor
  · rintro (hD | ⟨c, hcCov, rfl, hps⟩)
    · exact Or.inl ((mem_expandSubRegs_decompose S x).mp hD).1
    · exact Or.inr ⟨c, hcCov, rfl, (hparts c hcCov).mp hps⟩
  · rintro (hES | ⟨c, hcCov, rfl, hps⟩)
    · by_cases hsup : ∃ c ∈ REG_COVERINGS, x = c.1
      · rcases hsup with ⟨c, hcCov, rfl⟩
        exact Or.inr ⟨c, hcCov, rfl, (hparts c hcCov).mpr (hsupfull c hcCov hES)⟩
      · exact Or.inl ((mem_expandSubRegs_decompose S x).mpr
          ⟨hES, fun c hcCov heq => hsup ⟨c, hcCov, heq⟩⟩)
    · exact Or.inr ⟨c, hcCov, rfl, (hparts c hcCov).mpr hps⟩

/-! ### C9: termination of the write-analysis fixpoint.

The measure `stMeasure` is monotone under `updateWrites` and strictly increases
whenever the `changed` flag is raised; it is bounded by `writesBound` on states
satisfying `stOK`; hence the loop exits within `writesFuel` passes. -/

theorem foldl_invariant {α β : Type} (Q : β → Prop) (step : β → α → β) (l : List α)
    (hstep : ∀ (b : β) (a : α), a ∈ l → Q b → Q (step b a)) :
    ∀ (init : β), Q init → Q (l.foldl step init) := by
  induction l with
  | nil => intro init h; simpa using h
  | cons a l ih =>
      intro init h
      simp only [List.foldl_cons]
      exact ih (fun b a' ha' hb => hstep b a' (List.mem_cons_of_mem a ha') hb) _
        (hstep init a (List.mem_cons_self a l) h)

theorem mapGet_eq_none_iff {κ β : Type} [DecidableEq κ] {m : List (κ × β)} {k : κ} :
    mapGet m k = none ↔ k ∉ keysOf m := by
  unfold mapGet
  rw [Option.map_eq_none', List.find?_eq_none]
  constructor
  · intro h hk
    rcases List.mem_map.mp hk with ⟨p, hp, hpk⟩
    exact absurd (decide_eq_true hpk) (by simpa using h p hp)
  · intro h p hp
    simp only [decide_eq_true_eq]
    intro hpk
    exact h (List.mem_map.mpr ⟨p, hp, hpk⟩)

theorem keysOf_mapSet_present {κ β : Type} [DecidableEq κ] {m : List (κ × β)} {k : κ}
    (v : β) (h : mapHas m k = true) :
    keysOf (mapSet m k v) = keysOf m := by
  unfold mapSet
  rw [if_pos h]
  unfold keysOf
  rw [List.map_map]
  refine List.map_congr_left ?_
  intro p _
  by_cases hp : p.1 = k
  · simp [hp]
  · simp [hp]

theorem keysOf_mapSet_absent {κ β : Type} [DecidableEq κ] {m : List (κ × β)} {k : κ}
    (v : β) (h : ¬ mapHas m k = true) :
    keysOf (mapSet m k v) = keysOf m ++ [k] := by
  unfold mapSet
  rw [if_neg h]
  unfold keysOf
  rw [List.map_append]
  rfl

theorem mem_keysOf_mapSet {κ β : Type} [DecidableEq κ] {m : List (κ × β)} {k x : κ} {v : β}
    (h : x ∈ keysOf (mapSet m k v)) : x ∈ keysOf m ∨ x = k := by
  by_cases hk : mapHas m k = true
  · rw [keysOf_mapSet_present v hk] at h
    exact Or.inl h
  · rw [keysOf_mapSet_absent v hk] at h
    rcases List.mem_append.mp h with h' | h'
    · exact Or.inl h'
    · exact Or.inr (List.mem_singleton.mp h')

theorem nodup_keysOf_mapSet {κ β : Type} [DecidableEq κ] {m : List (κ × β)} {k : κ} {v : β}
    (h : (keysOf m).Nodup) : (keysOf (mapSet m k v)).Nodup := by
  by_cases hk : mapHas m k = true
  · rw [keysOf_mapSet_present v hk]
    exact h
  · rw [keysOf_mapSet_absent v hk]
    have hknot : k ∉ keysOf m := by
      have hnone : mapGet m k = none := by
        unfold mapHas at hk
        cases hg : mapGet m k with
        | none => rfl
        | some b => rw [hg] at hk; simp at hk
      exact mapGet_eq_none_iff.mp hnone
    exact List.Nodup.append h (List.nodup_singleton k)
      (by simpa [List.disjoint_singleton] using hknot)

theorem wmeasure_append (w : List (String × WVal)) (p : String × WVal) :
    wmeasure (w ++ [p]) = wmeasure w + level (some p.2) := by
  unfold wmeasure
  rw [List.map_append, List.sum_append]
  simp

theorem wmeasure_mapSet_absent {m : List (String × WVal)} {k : String} (v : WVal)
    (h : mapGet m k = none) :
    wmeasure (mapSet m k v) = wmeasure m + level (some v) := by
  have hh : ¬ mapHas m k = true := by unfold mapHas; rw [h]; simp
  unfold mapSet
  rw [if_neg hh]
  exact wmeasure_append m (k, v)

theorem wmeasure_mapSet_present {m : List (String × WVal)} {k : String} {v0 : WVal} (v : WVal)
    (hnd : (keysOf m).Nodup) (h : mapGet m k = some v0) :
    wmeasure (mapSet m k v) + level (some v0) = wmeasure m + level (some v) := by
  induction m with
  | nil => simp [mapGet] at h
  | cons p m ih =>
      have hndtail : (keysOf m).Nodup := (List.nodup_cons.mp hnd).2
      have hhead : p.1 ∉ keysOf m := (List.nodup_cons.mp hnd).1
      by_cases hp : p.1 = k
      · have hv0 : v0 = p.2 := by
          unfold mapGet at h
          rw [List.find?_cons_of_pos _ (by simpa using hp)] at h
          simpa using h.symm
        subst hv0
        have hhas : mapHas (p :: m) k = true := by
          unfold mapHas
          rw [h]
          rfl
        unfold mapSet
        rw [if_pos hhas]
        rw [List.map_cons]
        have hmap : m.map (fun q => if q.1 = k then (k, v) else q) = m := by
          conv_rhs => rw [← List.map_id m]
          refine List.map_congr_left ?_
          intro q hq
          have hqk : q.1 ≠ k := by
            intro hqk
            exact hhead (hp ▸ hqk ▸ List.mem_map_of_mem (fun r => r.1) hq)
          simp [hqk]
        rw [hmap]
        rw [if_pos hp]
        unfold wmeasure
        simp only [List.map_cons, List.sum_cons]
        omega
      · have htail : mapGet m k = some v0 := by
          unfold mapGet at h ⊢
          rw [List.find?_cons_of_neg _ (by simpa using hp)] at h
          exact h
        have hhastail : mapHas m k = true := by
          unfold mapHas
          rw [htail]
          rfl
        have hhas : mapHas (p :: m) k = true := by
          unfold mapHas mapGet
          rw [List.find?_cons_of_neg _ (by simpa using hp)]
          unfold mapGet at htail
          rw [htail]
          rfl
        unfold mapSet
        rw [if_pos hhas]
        rw [List.map_cons, if_neg hp]
        have hmapset : m.map (fun q => if q.1 = k then (k, v) else q) = mapSet m k v := by
          unfold mapSet
          rw [if_pos hhastail]
        rw [hmapset]
        have := ih hndtail htail
        unfold wmeasure at this ⊢
        simp only [List.map_cons, List.sum_cons]
        omega

theorem wmeasure_mapSet_ge {m : List (String × WVal)} {k : String} (v : WVal)
    (hnd : (keysOf m).Nodup) (hlt : level (some v) > level (mapGet m k)) :
    wmeasure m + 1 ≤ wmeasure (mapSet m k v) := by
  cases hg : mapGet m k with
  | none =>
      rw [wmeasure_mapSet_absent v hg]
      rw [hg] at hlt
      have : 1 < level (some v) := hlt
      omega
  | some v0 =>
      have := wmeasure_mapSet_present v hnd hg
      rw [hg] at hlt
      omega

theorem updFold_spec (src : List (String × WVal)) :
    ∀ (w : List (String × WVal)) (c : Bool), (keysOf w).Nodup →
      (keysOf (updWritesFold w c src).1).Nodup ∧
      (∀ x ∈ keysOf (updWritesFold w c src).1, x ∈ keysOf w ∨ x ∈ keysOf src) ∧
      wmeasure w ≤ wmeasure (updWritesFold w c src).1 ∧
      (c = true → (updWritesFold w c src).2 = true) ∧
      (c = false → (updWritesFold w c src).2 = true →
        wmeasure w + 1 ≤ wmeasure (updWritesFold w c src).1) := by
  induction src with
  | nil =>
      intro w c hnd
      refine ⟨hnd, fun x hx => Or.inl hx, le_refl _, fun hc => hc, ?_⟩
      intro hc hr
      rw [show (updWritesFold w c []).2 = c from rfl] at hr
      rw [hc] at hr
      exact absurd hr (by simp)
  | cons kv src ih =>
      intro w c hnd
      have hstep : updWritesFold w c (kv :: src) =
          if level (some kv.2) > level (mapGet w kv.1) then
            updWritesFold (mapSet w kv.1 kv.2) true src
          else updWritesFold w c src := by
        unfold updWritesFold
        simp only [List.foldl_cons]
        by_cases hlt : level (some kv.2) > level (mapGet w kv.1)
        · rw [if_pos hlt, if_pos hlt]
        · rw [if_neg hlt, if_neg hlt]
      rw [hstep]
      by_cases hlt : level (some kv.2) > level (mapGet w kv.1)
      · rw [if_pos hlt]
        have hnd' : (keysOf (mapSet w kv.1 kv.2)).Nodup := nodup_keysOf_mapSet hnd
        have hinc : wmeasure w + 1 ≤ wmeasure (mapSet w kv.1 kv.2) :=
          wmeasure_mapSet_ge kv.2 hnd hlt
        obtain ⟨h1, h2, h3, h4, _⟩ := ih (mapSet w kv.1 kv.2) true hnd'
        refine ⟨h1, ?_, by omega, fun _ => h4 rfl, fun _ _ => by omega⟩
        intro x hx
        rcases h2 x hx with hx' | hx'
        · rcases mem_keysOf_mapSet hx' with h' | rfl
          · exact Or.inl h'
          · exact Or.inr (List.mem_map_of_mem (fun p => p.1) (List.mem_cons_self kv src))
        · exact Or.inr (List.mem_cons_of_mem _ hx')
      · rw [if_neg hlt]
        obtain ⟨h1, h2, h3, h4, h5⟩ := ih w c hnd
        refine ⟨h1, ?_, h3, h4, h5⟩
        intro x hx
        rcases h2 x hx with hx' | hx'
        · exact Or.inl hx'
        · exact Or.inr (List.mem_cons_of_mem _ hx')

theorem retFold_spec (src : List Nat) :
    ∀ (r : List Nat) (c : Bool), r.Nodup →
      (updRetFold r c src).1.Nodup ∧
      (∀ x ∈ (updRetFold r c src).1, x ∈ r ∨ x ∈ src) ∧
      r.length ≤ (updRetFold r c src).1.length ∧
      (c = true → (updRetFold r c src).2 = true) ∧
      (c = false → (updRetFold r c src).2 = true →
        r.length + 1 ≤ (updRetFold r c src).1.length) := by
  induction src with
  | nil =>
      intro r c hnd
      refine ⟨hnd, fun x hx => Or.inl hx, le_refl _, fun hc => hc, ?_⟩
      intro hc hr
      rw [show (updRetFold r c []).2 = c from rfl] at hr
      rw [hc] at hr
      exact absurd hr (by simp)
  | cons k src ih =>
      intro r c hnd
      have hstep : updRetFold r c (k :: src) =
          if k ∈ r then updRetFold r c src else updRetFold (r ++ [k]) true src := by
        unfold updRetFold
        simp only [List.foldl_cons]
        by_cases hk : k ∈ r
        · rw [if_pos hk, if_pos hk]
        · rw [if_neg hk, if_neg hk]
      rw [hstep]
      by_cases hk : k ∈ r
      · rw [if_pos hk]
        obtain ⟨h1, h2, h3, h4, h5⟩ := ih r c hnd
        refine ⟨h1, ?_, h3, h4, h5⟩
        intro x hx
        rcases h2 x hx with hx' | hx'
        · exact Or.inl hx'
        · exact Or.inr (List.mem_cons_of_mem _ hx')
      · rw [if_neg hk]
        have hnd' : (r ++ [k]).Nodup :=
          List.Nodup.append hnd (List.nodup_singleton k)
            (by simpa [List.disjoint_singleton] using hk)
        obtain ⟨h1, h2, h3, h4, _⟩ := ih (r ++ [k]) true hnd'
        have hlen : (r ++ [k]).length = r.length + 1 := by simp
        refine ⟨h1, ?_, by omega, fun _ => h4 rfl, fun _ _ => by omega⟩
        intro x hx
        rcases h2 x hx with hx' | hx'
        · rcases List.mem_append.mp hx' with h' | h'
          · exact Or.inl h'
          · rw [List.mem_singleton.mp h']
            exact Or.inr (List.mem_cons_self k src)
        · exact Or.inr (List.mem_cons_of_mem _ hx')

theorem updateWrites_spec (dest src : WriteData)
    (hk : (keysOf dest.writes).Nodup) (hr : dest.returnsAt.Nodup) :
    (keysOf (updateWrites dest src).1.writes).Nodup ∧
    (updateWrites dest src).1.returnsAt.Nodup ∧
    (∀ x ∈ keysOf (updateWrites dest src).1.writes,
        x ∈ keysOf dest.writes ∨ x ∈ keysOf src.writes) ∧
    (∀ i ∈ (updateWrites dest src).1.returnsAt, i ∈ dest.returnsAt ∨ i ∈ src.returnsAt) ∧
    wdMeasure dest ≤ wdMeasure (updateWrites dest src).1 ∧
    ((updateWrites dest src).2 = true →
      wdMeasure dest + 1 ≤ wdMeasure (updateWrites dest src).1) := by
  obtain ⟨w1, w2, w3, _, w5⟩ := updFold_spec src.writes dest.writes false hk
  obtain ⟨r1, r2, r3, r4, r5⟩ := retFold_spec src.returnsAt dest.returnsAt
    (updWritesFold dest.writes false src.writes).2 hr
  have hw : (updateWrites dest src).1.writes = (updWritesFold dest.writes false src.writes).1 :=
    rfl
  have hret : (updateWrites dest src).1.returnsAt
      = (updRetFold dest.returnsAt (updWritesFold dest.writes false src.writes).2
          src.returnsAt).1 := rfl
  have hflag : (updateWrites dest src).2
      = (updRetFold dest.returnsAt (updWritesFold dest.writes false src.writes).2
          src.returnsAt).2 := rfl
  have hmeas : wdMeasure (updateWrites dest src).1
      = wmeasure (updWritesFold dest.writes false src.writes).1
        + (updRetFold dest.returnsAt (updWritesFold dest.writes false src.writes).2
            src.returnsAt).1.length := rfl
  refine ⟨by rw [hw]; exact w1, by rw [hret]; exact r1,
    by rw [hw]; exact w2, by rw [hret]; exact r2, ?_, ?_⟩
  · rw [hmeas]
    unfold wdMeasure
    omega
  · intro hch
    rw [hflag] at hch
    rw [hmeas]
    unfold wdMeasure
    by_cases hmid : (updWritesFold dest.writes false src.writes).2 = true
    · have := w5 rfl hmid
      omega
    · have hfalse : (updWritesFold dest.writes false src.writes).2 = false := by
        revert hmid
        cases (updWritesFold dest.writes false src.writes).2 <;> simp
      have := r5 hfalse hch
      omega

theorem keysOf_filter_sub {p : String × WVal → Bool} {m : List (String × WVal)}
    {x : String} (h : x ∈ keysOf (m.filter p)) : x ∈ keysOf m := by
  rcases List.mem_map.mp h with ⟨q, hq, rfl⟩
  exact List.mem_map_of_mem (fun r => r.1) (List.mem_of_mem_filter hq)

theorem headAsRegister_none (ops : List Operand) : ops.head?.bind asRegister = none := by
  cases h : ops.head? with
  | none => rfl
  | some op => simp [asRegister_eq_none]

theorem emptyWriteData_wdOK (instrs : List Instr) : wdOK instrs emptyWriteData := by
  constructor <;> intro x hx <;> simp [emptyWriteData, keysOf] at hx

theorem getD_wdOK (instrs : List Instr) (state : List WriteData)
    (hstate : ∀ wd ∈ state, wdOK instrs wd) (t : Nat) :
    wdOK instrs (state.getD t emptyWriteData) := by
  rw [List.getD_eq_getElem?_getD]
  cases hg : state[t]? with
  | none => simpa [hg] using emptyWriteData_wdOK instrs
  | some wd =>
      have : wd ∈ state := by
        have := List.getElem?_eq_some_iff.mp hg
        rcases this with ⟨hlt, hget⟩
        exact hget ▸ List.getElem_mem hlt
      simpa [hg] using hstate wd this

theorem seqComposeStep_keys (mapping : List (String × WVal)) (b : List (String × WVal))
    (a : String × WVal) {y : String} (hy : y ∈ keysOf (seqComposeStep mapping b a)) :
    y ∈ keysOf b ∨ y = a.1 := by
  rcases a with ⟨k', v'⟩
  cases v' <;> exact mem_keysOf_mapSet hy

theorem seqWrites_sub (next : WriteData) (mapping : List (String × WVal)) :
    (∀ x ∈ keysOf (seqWrites next mapping).writes,
        x ∈ keysOf next.writes ∨ x ∈ keysOf mapping) ∧
    (∀ j ∈ (seqWrites next mapping).returnsAt, j ∈ next.returnsAt) := by
  unfold seqWrites
  by_cases hret : next.returnsAt = []
  · rw [if_pos hret]
    constructor <;> intro x hx <;> simp [emptyWriteData, keysOf] at hx
  · rw [if_neg hret]
    refine ⟨?_, fun j hj => hj⟩
    intro x hx
    have hinit : ∀ y ∈ keysOf (next.writes.foldl (seqComposeStep mapping) []),
        y ∈ keysOf next.writes ∨ y ∈ keysOf mapping := by
      refine foldl_invariant
        (fun m => ∀ y ∈ keysOf m, y ∈ keysOf next.writes ∨ y ∈ keysOf mapping)
        (seqComposeStep mapping) next.writes ?_ []
        (by intro y hy; simp [keysOf] at hy)
      intro b a ha hb y hy
      rcases seqComposeStep_keys mapping b a hy with h' | rfl
      · exact hb y h'
      · exact Or.inl (List.mem_map_of_mem (fun r => r.1) ha)
    refine foldl_invariant
      (fun m => ∀ y ∈ keysOf m, y ∈ keysOf next.writes ∨ y ∈ keysOf mapping)
      (seqOverlayStep next.writes) mapping ?_ _ hinit x hx
    intro b a ha hb y hy
    unfold seqOverlayStep at hy
    by_cases hm : mapHas next.writes a.1 = true
    · rw [if_pos hm] at hy
      exact hb y hy
    · rw [if_neg hm] at hy
      rcases mem_keysOf_mapSet hy with h' | rfl
      · exact hb y h'
      · exact Or.inr (List.mem_map_of_mem (fun r => r.1) ha)

theorem pushWrites_sub (writeSrc : WriteData) (offset : Int) :
    (∀ x ∈ keysOf (pushWrites writeSrc offset).writes, x ∈ keysOf writeSrc.writes) ∧
    (∀ j ∈ (pushWrites writeSrc offset).returnsAt, j ∈ writeSrc.returnsAt) := by
  unfold pushWrites
  by_cases hret : writeSrc.returnsAt = []
  · rw [if_pos hret]
    constructor <;> intro x hx <;> simp [emptyWriteData, keysOf] at hx
  · rw [if_neg hret]
    refine ⟨?_, fun j hj => hj⟩
    intro x hx
    refine foldl_invariant (fun m => ∀ y ∈ keysOf m, y ∈ keysOf writeSrc.writes)
      (pushShiftStep offset) writeSrc.writes ?_ []
      (by intro y hy; simp [keysOf] at hy) x hx
    intro b a ha hb y hy
    have hy' : y ∈ keysOf b ∨ y = a.1 := by
      rcases a with ⟨k', v'⟩
      cases v' <;> exact mem_keysOf_mapSet hy
    rcases hy' with h' | rfl
    · exact hb y h'
    · exact List.mem_map_of_mem (fun r => r.1) ha

theorem seqWrites_sp (next : WriteData) (mapping : List (String × WVal)) :
    (seqWrites next mapping).returnsAt = next.returnsAt ∨
      (seqWrites next mapping).returnsAt = [] := by
  unfold seqWrites
  by_cases hret : next.returnsAt = []
  · rw [if_pos hret]
    exact Or.inr rfl
  · rw [if_neg hret]
    exact Or.inl rfl

theorem popShiftStep_spec (offset : Int) (resultReg : Option String) (K : List String)
    (b : List (String × WVal) × List String) (a : String × WVal) (haK : a.1 ∈ K)
    (hb : (∀ y ∈ keysOf b.1, y ∈ K) ∧ (∀ y ∈ b.2, y ∈ K)) :
    (∀ y ∈ keysOf (popShiftStep offset resultReg b a).1, y ∈ K) ∧
    (∀ y ∈ (popShiftStep offset resultReg b a).2, y ∈ K) := by
  rcases a with ⟨k', v'⟩
  cases v' with
  | anyW =>
      rw [show popShiftStep offset resultReg b (k', WVal.anyW)
          = (mapSet b.1 k' WVal.anyW, b.2) from rfl]
      refine ⟨?_, hb.2⟩
      intro y hy
      rcases mem_keysOf_mapSet hy with h' | rfl
      · exact hb.1 y h'
      · exact haK
  | regW v =>
      rw [show popShiftStep offset resultReg b (k', WVal.regW v)
          = (mapSet b.1 k' (WVal.regW v), b.2) from rfl]
      refine ⟨?_, hb.2⟩
      intro y hy
      rcases mem_keysOf_mapSet hy with h' | rfl
      · exact hb.1 y h'
      · exact haK
  | stackW idx size =>
      rw [show popShiftStep offset resultReg b (k', WVal.stackW idx size)
          = (if idx = 0 ∧ size = 2 ∧ resultReg.isSome = true then (b.1, b.2 ++ [k'])
             else if idx < offset then (mapSet b.1 k' WVal.anyW, b.2)
             else (mapSet b.1 k' (WVal.stackW (idx - offset) size), b.2)) from rfl]
      by_cases h1 : idx = 0 ∧ size = 2 ∧ resultReg.isSome = true
      · rw [if_pos h1]
        refine ⟨hb.1, ?_⟩
        intro y hy
        rcases List.mem_append.mp hy with h' | h'
        · exact hb.2 y h'
        · rw [List.mem_singleton.mp h']
          exact haK
      · rw [if_neg h1]
        by_cases h2 : idx < offset
        · rw [if_pos h2]
          refine ⟨?_, hb.2⟩
          intro y hy
          rcases mem_keysOf_mapSet hy with h' | rfl
          · exact hb.1 y h'
          · exact haK
        · rw [if_neg h2]
          refine ⟨?_, hb.2⟩
          intro y hy
          rcases mem_keysOf_mapSet hy with h' | rfl
          · exact hb.1 y h'
          · exact haK

theorem popRestoreStep_keys (resultReg : Option String) (K : List String)
    (b : List (String × WVal)) (a : String) (haK : a ∈ K)
    (hb : ∀ y ∈ keysOf b, y ∈ K ∨ y ∈ ALLSUBVALS) :
    ∀ y ∈ keysOf (popRestoreStep resultReg b a), y ∈ K ∨ y ∈ ALLSUBVALS := by
  unfold popRestoreStep
  cases resultReg with
  | none => exact hb
  | some res =>
      refine foldl_invariant (fun m => ∀ z ∈ keysOf m, z ∈ K ∨ z ∈ ALLSUBVALS)
        (popRestoreSubStep res) (subRegsOf a) ?_ (mapSet b a (.regW res)) ?_
      · intro b2 p hp hb2 z hz
        unfold popRestoreSubStep at hz
        cases hg : mapGet (subRegsOf res) p.1 with
        | none => rw [hg] at hz; exact hb2 z hz
        | some subRes =>
            rw [hg] at hz
            rcases mem_keysOf_mapSet hz with h' | rfl
            · exact hb2 z h'
            · exact Or.inr (subRegsOf_vals a p hp)
      · intro z hz
        rcases mem_keysOf_mapSet hz with h' | rfl
        · exact hb z h'
        · exact Or.inl haK

theorem popWrites_sub (writeSrc : WriteData) (offset : Int) (resultReg : Option String) :
    (∀ x ∈ keysOf (popWrites writeSrc offset resultReg).writes,
        x ∈ keysOf writeSrc.writes ∨ x ∈ ALLSUBVALS) ∧
    (∀ j ∈ (popWrites writeSrc offset resultReg).returnsAt, j ∈ writeSrc.returnsAt) := by
  unfold popWrites
  by_cases hret : writeSrc.returnsAt = []
  · rw [if_pos hret]
    constructor <;> intro x hx <;> simp [emptyWriteData, keysOf] at hx
  · rw [if_neg hret]
    refine ⟨?_, fun j hj => hj⟩
    intro x hx
    have hx2 := keysOf_filter_sub hx
    have hfirst := foldl_invariant
      (fun (q : List (String × WVal) × List String) =>
        (∀ y ∈ keysOf q.1, y ∈ keysOf writeSrc.writes) ∧
        (∀ y ∈ q.2, y ∈ keysOf writeSrc.writes))
      (popShiftStep offset resultReg) writeSrc.writes
      (fun b a ha hb =>
        popShiftStep_spec offset resultReg (keysOf writeSrc.writes) b a
          (List.mem_map_of_mem (fun r => r.1) ha) hb)
      ([], []) ⟨by intro y hy; simp [keysOf] at hy, by intro y hy; simp at hy⟩
    refine foldl_invariant
      (fun m => ∀ y ∈ keysOf m, y ∈ keysOf writeSrc.writes ∨ y ∈ ALLSUBVALS)
      (popRestoreStep resultReg) _ ?_ _ (fun y hy => Or.inl (hfirst.1 y hy)) x hx2
    intro b a ha hb
    exact popRestoreStep_keys resultReg (keysOf writeSrc.writes) b a (hfirst.2 a ha) hb

theorem mergeStep_keys (b : List (String × WVal)) (a : String × WVal) {y : String}
    (hy : y ∈ keysOf (mergeStep b a)) : y ∈ keysOf b ∨ y = a.1 := by
  unfold mergeStep at hy
  cases hg : mapGet b a.1 with
  | none =>
      rw [hg] at hy
      exact mem_keysOf_mapSet hy
  | some v1 =>
      rw [hg] at hy
      cases hv2 : a.2 with
      | anyW =>
          rw [hv2] at hy
          cases v1 with
          | anyW =>
              exact mem_keysOf_mapSet (show y ∈ keysOf (mapSet b a.1 WVal.anyW) from hy)
          | regW r1 =>
              exact mem_keysOf_mapSet (show y ∈ keysOf (mapSet b a.1 WVal.anyW) from hy)
          | stackW i1 s1 =>
              exact mem_keysOf_mapSet (show y ∈ keysOf (mapSet b a.1 WVal.anyW) from hy)
      | regW r2 =>
          rw [hv2] at hy
          cases v1 with
          | anyW =>
              exact mem_keysOf_mapSet (show y ∈ keysOf (mapSet b a.1 WVal.anyW) from hy)
          | regW r1 =>
              have hy' : y ∈ keysOf (if r1 = r2 then b else mapSet b a.1 WVal.anyW) := hy
              by_cases hr : r1 = r2
              · rw [if_pos hr] at hy'
                exact Or.inl hy'
              · rw [if_neg hr] at hy'
                exact mem_keysOf_mapSet hy'
          | stackW i1 s1 =>
              exact mem_keysOf_mapSet (show y ∈ keysOf (mapSet b a.1 WVal.anyW) from hy)
      | stackW i2 s2 =>
          rw [hv2] at hy
          cases v1 with
          | anyW =>
              exact mem_keysOf_mapSet (show y ∈ keysOf (mapSet b a.1 WVal.anyW) from hy)
          | regW r1 =>
              exact mem_keysOf_mapSet (show y ∈ keysOf (mapSet b a.1 WVal.anyW) from hy)
          | stackW i1 s1 =>
              have hy' : y ∈ keysOf (if i1 = i2 ∧ s1 = s2 then b
                  else mapSet b a.1 WVal.anyW) := hy
              by_cases hs : i1 = i2 ∧ s1 = s2
              · rw [if_pos hs] at hy'
                exact Or.inl hy'
              · rw [if_neg hs] at hy'
                exact mem_keysOf_mapSet hy'

theorem mergeWrites_sub (write1 write2 : WriteData) :
    (∀ x ∈ keysOf (mergeWrites write1 write2).writes,
        x ∈ keysOf write1.writes ∨ x ∈ keysOf write2.writes) ∧
    (∀ j ∈ (mergeWrites write1 write2).returnsAt,
        j ∈ write1.returnsAt ∨ j ∈ write2.returnsAt) := by
  unfold mergeWrites
  by_cases h1 : write1.returnsAt = []
  · rw [if_pos h1]
    exact ⟨fun x hx => Or.inr hx, fun j hj => Or.inr hj⟩
  · rw [if_neg h1]
    by_cases h2 : write2.returnsAt = []
    · rw [if_pos h2]
      exact ⟨fun x hx => Or.inl hx, fun j hj => Or.inl hj⟩
    · rw [if_neg h2]
      constructor
      · intro x hx
        have hinit : ∀ y ∈ keysOf (write1.writes.foldl (fun acc kv => mapSet acc kv.1 kv.2) []),
            y ∈ keysOf write1.writes ∨ y ∈ keysOf write2.writes := by
          refine foldl_invariant
            (fun m => ∀ y ∈ keysOf m,
              y ∈ keysOf write1.writes ∨ y ∈ keysOf write2.writes)
            (fun acc kv => mapSet acc kv.1 kv.2) write1.writes ?_ []
            (by intro y hy; simp [keysOf] at hy)
          intro b a ha hb y hy
          rcases mem_keysOf_mapSet hy with h' | rfl
          · exact hb y h'
          · exact Or.inl (List.mem_map_of_mem (fun r => r.1) ha)
        refine foldl_invariant
          (fun m => ∀ y ∈ keysOf m, y ∈ keysOf write1.writes ∨ y ∈ keysOf write2.writes)
          mergeStep write2.writes ?_ _ hinit x hx
        intro b a ha hb y hy
        rcases mergeStep_keys b a hy with h' | rfl
        · exact hb y h'
        · exact Or.inr (List.mem_map_of_mem (fun r => r.1) ha)
      · intro j hj
        rcases (mem_foldl_setAdd write2.returnsAt write1.returnsAt j).mp hj with h' | h'
        · exact Or.inl h'
        · exact Or.inr h'

theorem all_mem_sub (l L : List String)
    (h : l.all (fun r => decide (r ∈ L)) = true) : ∀ x ∈ l, x ∈ L := by
  intro x hx
  exact of_decide_eq_true (List.all_eq_true.mp h x hx)

theorem mem_writeKeyUniverse (instrs : List Instr) {x : String}
    (h : x ∈ FIXED_WRITE_KEYS ∨ x ∈ movDests instrs) : x ∈ writeKeyUniverse instrs := by
  unfold writeKeyUniverse
  exact List.mem_dedup.mpr (List.mem_append.mpr h)

theorem mem_movDests_aux (d : String) (src : XOperand) :
    ∀ (l : List Instr) (init : List String),
      (d ∈ init ∨ Instr.movI (.regOp d) src ∈ l) →
      d ∈ l.foldl
        (fun acc instr =>
          match instr with
          | .movI (.regOp d') _ => setAdd acc d'
          | _ => acc) init := by
  intro l
  induction l with
  | nil =>
      intro init h
      rcases h with h | h
      · simpa using h
      · simp at h
  | cons a l ih =>
      intro init h
      simp only [List.foldl_cons]
      apply ih
      rcases h with h | h
      · left
        cases a with
        | movI dest s =>
            cases dest with
            | regOp d' => exact mem_setAdd.mpr (Or.inl h)
            | memOp b2 i2 disp => exact h
            | immOp op => exact h
        | generic m ops => exact h
        | jmpI m t => exact h
        | jccI m c t => exact h
      · rcases List.mem_cons.mp h with heq | h'
        · left
          rw [← heq]
          exact mem_setAdd.mpr (Or.inr rfl)
        · exact Or.inr h'

theorem mem_movDests (instrs : List Instr) (i : Nat) (d : String) (src : XOperand)
    (hinstr : instrs.get? i = some (.movI (.regOp d) src)) : d ∈ movDests instrs := by
  have hmem : Instr.movI (.regOp d) src ∈ instrs := List.get?_mem hinstr
  unfold movDests
  exact mem_movDests_aux d src instrs [] (Or.inr hmem)

theorem superRegsOf_vals (r x : String) (hx : x ∈ superRegsOf r) :
    x ∈ ["ax", "cx", "dx", "bx", "hflags", "flags"] := by
  have htab : ∀ p ∈ SUPER_REGS, ∀ y ∈ p.2, y ∈ ["ax", "cx", "dx", "bx", "hflags", "flags"] := by
    decide
  unfold superRegsOf at hx
  cases hm : mapGet SUPER_REGS r with
  | none => rw [hm] at hx; simp at hx
  | some L =>
      rw [hm] at hx
      simp only [Option.getD_some] at hx
      exact htab _ (mapGet_some_mem hm) x hx

theorem mem_expandAliases_sub (S : List String) (x : String) (hx : x ∈ expandAliases S) :
    x ∈ S ∨ x ∈ ALLSUBVALS ∨ x ∈ ["ax", "cx", "dx", "bx", "hflags", "flags"] := by
  have heq : expandAliases S = (expandSubRegs S).foldl
      (fun acc r => (superRegsOf r).foldl (fun a s => setAdd a s) (setAdd acc r)) [] := rfl
  rw [heq] at hx
  have hstep : ∀ (acc : List String) (r y : String),
      y ∈ (superRegsOf r).foldl (fun a s => setAdd a s) (setAdd acc r)
        ↔ y ∈ acc ∨ (y = r ∨ y ∈ superRegsOf r) := by
    intro acc r y
    rw [mem_foldl_step (fun a s => setAdd a s) (fun s y' => y' = s)
      (fun acc' s y' => mem_setAdd) (superRegsOf r) (setAdd acc r) y, mem_setAdd]
    constructor
    · rintro ((h | h) | ⟨s, hs, rfl⟩)
      · exact Or.inl h
      · exact Or.inr (Or.inl h)
      · exact Or.inr (Or.inr hs)
    · rintro (h | h | h)
      · exact Or.inl (Or.inl h)
      · exact Or.inl (Or.inr h)
      · exact Or.inr ⟨y, h, rfl⟩
  rw [mem_foldl_step
    (fun acc r => (superRegsOf r).foldl (fun a s => setAdd a s) (setAdd acc r))
    (fun r y => y = r ∨ y ∈ superRegsOf r) hstep (expandSubRegs S) [] x] at hx
  rcases hx with h | ⟨r, hr, rfl | hsup⟩
  · exact absurd h (List.not_mem_nil x)
  · rcases (mem_expandSubRegs S x).mp hr with h | ⟨r', _, p, hp, rfl⟩
    · exact Or.inl h
    · exact Or.inr (Or.inl (subRegsOf_vals r' p hp))
  · exact Or.inr (Or.inr (superRegsOf_vals r x hsup))

theorem anyMapOf_keys (regs : List String) : ∀ y ∈ keysOf (anyMapOf regs), y ∈ regs := by
  unfold anyMapOf
  refine foldl_invariant (fun m => ∀ y ∈ keysOf m, y ∈ regs)
    (fun acc r => mapSet acc r WVal.anyW) regs ?_ [] (by intro y hy; simp [keysOf] at hy)
  intro b a ha hb y hy
  rcases mem_keysOf_mapSet hy with h' | rfl
  · exact hb y h'
  · exact ha

theorem movSubStep_keys (s : String) (b : List (String × WVal)) (p : String × String)
    {y : String} (hy : y ∈ keysOf (movSubStep s b p)) : y ∈ keysOf b ∨ y = p.2 := by
  unfold movSubStep at hy
  cases hg : mapGet (subRegsOf s) p.1 with
  | none =>
      rw [hg] at hy
      exact Or.inl hy
  | some srcSub =>
      rw [hg] at hy
      exact mem_keysOf_mapSet hy

theorem movMapping_keys_sub (d s : String) :
    ∀ x ∈ keysOf (movMapping d s), x ∈ expandAliases [d] ∨ x = d ∨ x ∈ ALLSUBVALS := by
  intro x hx
  unfold movMapping at hx
  refine foldl_invariant
    (fun m => ∀ y ∈ keysOf m, y ∈ expandAliases [d] ∨ y = d ∨ y ∈ ALLSUBVALS)
    (movSubStep s) (subRegsOf d) ?_ _ ?_ x hx
  · intro b a ha hb y hy
    rcases movSubStep_keys s b a hy with h' | rfl
    · exact hb y h'
    · exact Or.inr (Or.inr (subRegsOf_vals d a ha))
  · intro y hy
    rcases mem_keysOf_mapSet hy with h' | rfl
    · exact Or.inl (anyMapOf_keys (expandAliases [d]) y h')
    · exact Or.inr (Or.inl rfl)

set_option maxHeartbeats 2000000 in
theorem genericIO_defines_sub (mnemonic : String) (operands : List Operand) :
    ∀ x ∈ (genericIOImpl mnemonic operands).2, x ∈ FIXED_WRITE_KEYS := by
  intro x hx
  unfold genericIOImpl at hx
  split at hx <;>
    (try split at hx) <;>
    (try split at hx) <;>
    simp only [destOf_eq_nil, List.nil_append] at hx <;>
    exact all_mem_sub _ FIXED_WRITE_KEYS (by decide) x hx

theorem jccIO_defines_nil (m c : String) (t : XOperand) :
    (instructionIOImpl (.jccI m c t)).2 = [] := by
  simp only [instructionIOImpl,
    apply_ite (fun p : List String × List String => p.2), ite_self]

theorem definesPair_sub (instrs : List Instr) (i : Nat) (instr : Instr)
    (hinstr : instrs.get? i = some instr) :
    ∀ x ∈ (instructionIOPair instr).2, x ∈ writeKeyUniverse instrs := by
  intro x hx
  unfold instructionIOPair at hx
  rw [mem_setOf] at hx
  cases instr with
  | generic mnemonic operands =>
      exact mem_writeKeyUniverse instrs (Or.inl (genericIO_defines_sub mnemonic operands x hx))
  | movI dest src =>
      have hx' : x ∈ operandAsDest dest := hx
      cases dest with
      | regOp d =>
          have hxd : x = d := by simpa [operandAsDest] using hx'
          subst hxd
          exact mem_writeKeyUniverse instrs (Or.inr (mem_movDests instrs i x src hinstr))
      | memOp b2 i2 disp => simp [operandAsDest] at hx'
      | immOp op => simp [operandAsDest] at hx'
  | jmpI m t =>
      have hx' : x ∈ ([] : List String) := hx
      simp at hx'
  | jccI m c t =>
      rw [jccIO_defines_nil] at hx
      simp at hx

theorem writeTransferDefault_wdOK (instrs : List Instr) (i : Nat) (instr : Instr)
    (hinstr : instrs.get? i = some instr) (next : WriteData) (hnext : wdOK instrs next) :
    wdOK instrs (writeTransferDefault instr next) := by
  unfold writeTransferDefault
  constructor
  · intro k hk
    rcases (seqWrites_sub next _).1 k hk with h | h
    · exact hnext.1 k h
    · have hreg := anyMapOf_keys (expandAliases (instructionIOPair instr).2) k h
      rcases mem_expandAliases_sub _ k hreg with h' | h' | h'
      · exact definesPair_sub instrs i instr hinstr k h'
      · exact mem_writeKeyUniverse instrs
          (Or.inl (all_mem_sub ALLSUBVALS FIXED_WRITE_KEYS (by decide) k h'))
      · exact mem_writeKeyUniverse instrs
          (Or.inl (all_mem_sub _ FIXED_WRITE_KEYS (by decide) k h'))
  · intro j hj
    exact hnext.2 j ((seqWrites_sub next _).2 j hj)

theorem writeTransferCore_wdOK (instrs : List Instr) (labels : List (String × Nat))
    (state : List WriteData) (i : Nat) (instr : Instr)
    (hinstr : instrs.get? i = some instr)
    (hstate : ∀ cell ∈ state, wdOK instrs cell)
    (next : WriteData) (hnext : wdOK instrs next) :
    ∀ wd, writeTransferCore labels state i instr next = some wd → wdOK instrs wd := by
  intro wd hwd
  cases instr with
  | movI dest src =>
      cases dest with
      | regOp d =>
          cases src with
          | regOp s =>
              simp only [writeTransferCore] at hwd
              by_cases hd : d = "sp"
              · rw [if_pos hd] at hwd
                injection hwd with h
                rw [← h]
                exact emptyWriteData_wdOK instrs
              · rw [if_neg hd] at hwd
                injection hwd with h
                rw [← h]
                constructor
                · intro k hk
                  rcases (seqWrites_sub next (movMapping d s)).1 k hk with h1 | h1
                  · exact hnext.1 k h1
                  · rcases movMapping_keys_sub d s k h1 with h2 | h2 | h2
                    · rcases mem_expandAliases_sub [d] k h2 with h3 | h3 | h3
                      · rw [List.mem_singleton.mp h3]
                        exact mem_writeKeyUniverse instrs
                          (Or.inr (mem_movDests instrs i d (.regOp s) hinstr))
                      · exact mem_writeKeyUniverse instrs
                          (Or.inl (all_mem_sub ALLSUBVALS _ (by decide) k h3))
                      · exact mem_writeKeyUniverse instrs
                          (Or.inl (all_mem_sub _ _ (by decide) k h3))
                    · rw [h2]
                      exact mem_writeKeyUniverse instrs
                        (Or.inr (mem_movDests instrs i d (.regOp s) hinstr))
                    · exact mem_writeKeyUniverse instrs
                        (Or.inl (all_mem_sub ALLSUBVALS _ (by decide) k h2))
                · intro j hj
                  exact hnext.2 j ((seqWrites_sub next (movMapping d s)).2 j hj)
          | memOp b2 i2 disp =>
              simp only [writeTransferCore] at hwd
              by_cases hd : d = "sp"
              · rw [if_pos hd] at hwd
                injection hwd with h
                rw [← h]
                exact emptyWriteData_wdOK instrs
              · rw [if_neg hd] at hwd
                exact absurd hwd (by simp)
          | immOp op =>
              simp only [writeTransferCore] at hwd
              by_cases hd : d = "sp"
              · rw [if_pos hd] at hwd
                injection hwd with h
                rw [← h]
                exact emptyWriteData_wdOK instrs
              · rw [if_neg hd] at hwd
                exact absurd hwd (by simp)
      | memOp b2 i2 disp =>
          simp only [writeTransferCore] at hwd
          exact absurd hwd (by simp)
      | immOp op =>
          simp only [writeTransferCore] at hwd
          exact absurd hwd (by simp)
  | jmpI m t =>
      cases t with
      | regOp r =>
          simp only [writeTransferCore] at hwd
          exact absurd hwd (by simp)
      | memOp b2 i2 disp =>
          simp only [writeTransferCore] at hwd
          exact absurd hwd (by simp)
      | immOp op =>
          cases op with
          | varOp name =>
              simp only [writeTransferCore] at hwd
              rcases Option.bind_eq_some.mp hwd with ⟨tt, _, hget⟩
              exact hstate wd (List.get?_mem hget)
          | regOp r =>
              simp only [writeTransferCore] at hwd
              exact absurd hwd (by simp)
          | intOp a b =>
              simp only [writeTransferCore] at hwd
              exact absurd hwd (by simp)
          | strOp s2 =>
              simp only [writeTransferCore] at hwd
              exact absurd hwd (by simp)
          | indirect a =>
              simp only [writeTransferCore] at hwd
              exact absurd hwd (by simp)
          | binOp o l2 r2 =>
              simp only [writeTransferCore] at hwd
              exact absurd hwd (by simp)
          | unOp o a =>
              simp only [writeTransferCore] at hwd
              exact absurd hwd (by simp)
          | garbage msg =>
              simp only [writeTransferCore] at hwd
              exact absurd hwd (by simp)
  | jccI m c t =>
      cases t with
      | regOp r =>
          simp only [writeTransferCore] at hwd
          exact absurd hwd (by simp)
      | memOp b2 i2 disp =>
          simp only [writeTransferCore] at hwd
          exact absurd hwd (by simp)
      | immOp op =>
          cases op with
          | varOp name =>
              simp only [writeTransferCore] at hwd
              rcases Option.map_eq_some'.mp hwd with ⟨tt, _, heq⟩
              rw [← heq]
              have htt : wdOK instrs (state.getD tt emptyWriteData) :=
                getD_wdOK instrs state hstate tt
              constructor
              · intro k hk
                rcases (mergeWrites_sub next (state.getD tt emptyWriteData)).1 k hk with h1 | h1
                · exact hnext.1 k h1
                · exact htt.1 k h1
              · intro j hj
                rcases (mergeWrites_sub next (state.getD tt emptyWriteData)).2 j hj with h1 | h1
                · exact hnext.2 j h1
                · exact htt.2 j h1
          | regOp r =>
              simp only [writeTransferCore] at hwd
              exact absurd hwd (by simp)
          | intOp a b =>
              simp only [writeTransferCore] at hwd
              exact absurd hwd (by simp)
          | strOp s2 =>
              simp only [writeTransferCore] at hwd
              exact absurd hwd (by simp)
          | indirect a =>
              simp only [writeTransferCore] at hwd
              exact absurd hwd (by simp)
          | binOp o l2 r2 =>
              simp only [writeTransferCore] at hwd
              exact absurd hwd (by simp)
          | unOp o a =>
              simp only [writeTransferCore] at hwd
              exact absurd hwd (by simp)
          | garbage msg =>
              simp only [writeTransferCore] at hwd
              exact absurd hwd (by simp)
  | generic mnemonic operands =>
      simp only [writeTransferCore, headAsRegister_none] at hwd
      by_cases h1 : mnemonic = "push"
      · rw [if_pos h1] at hwd
        injection hwd with h
        rw [← h]
        constructor
        · intro k hk
          rcases (popWrites_sub next 2 none).1 k hk with h2 | h2
          · exact hnext.1 k h2
          · exact mem_writeKeyUniverse instrs
              (Or.inl (all_mem_sub ALLSUBVALS _ (by decide) k h2))
        · intro j hj
          exact hnext.2 j ((popWrites_sub next 2 none).2 j hj)
      · rw [if_neg h1] at hwd
        by_cases h2 : mnemonic = "pop"
        · rw [if_pos h2] at hwd
          injection hwd with h
          rw [← h]
          constructor
          · intro k hk
            exact hnext.1 k ((pushWrites_sub next 2).1 k hk)
          · intro j hj
            exact hnext.2 j ((pushWrites_sub next 2).2 j hj)
        · rw [if_neg h2] at hwd
          by_cases h3 : mnemonic = "ret"
          · rw [if_pos h3] at hwd
            injection hwd with h
            rw [← h]
            constructor
            · intro k hk
              simp [retWriteData, keysOf] at hk
            · intro j hj
              have hj2 : j = i := by simpa [retWriteData] using hj
              subst hj2
              have hh := hinstr
              rw [List.get?_eq_getElem?] at hh
              exact (List.getElem?_eq_some_iff.mp hh).1
          · rw [if_neg h3] at hwd
            exact absurd hwd (by simp)

theorem writeTransfer_wdOK (instrs : List Instr) (labels : List (String × Nat))
    (state : List WriteData) (i : Nat) (instr : Instr)
    (hinstr : instrs.get? i = some instr)
    (hstate : ∀ cell ∈ state, wdOK instrs cell)
    (next : WriteData) (hnext : wdOK instrs next) :
    wdOK instrs (writeTransfer labels state i instr next) := by
  unfold writeTransfer
  cases hc : writeTransferCore labels state i instr next with
  | none => exact writeTransferDefault_wdOK instrs i instr hinstr next hnext
  | some wd =>
      exact writeTransferCore_wdOK instrs labels state i instr hinstr hstate next hnext wd hc

theorem getD_mem_or {α : Type} (l : List α) (d : α) (t : Nat) :
    l.getD t d ∈ l ∨ l.getD t d = d := by
  rw [List.getD_eq_getElem?_getD]
  cases hg : l[t]? with
  | none => right; simp [hg]
  | some a =>
      left
      rcases List.getElem?_eq_some_iff.mp hg with ⟨hlt, hget⟩
      simp only [hg, Option.getD_some]
      exact hget ▸ List.getElem_mem hlt

theorem getD_wdND (state : List WriteData) (hstate : ∀ wd ∈ state, wdND wd) (t : Nat) :
    wdND (state.getD t emptyWriteData) := by
  rcases getD_mem_or state emptyWriteData t with h | h
  · exact hstate _ h
  · rw [h]
    constructor <;> simp [emptyWriteData, keysOf]

theorem sum_map_set {α : Type} (f : α → Nat) :
    ∀ (l : List α) (i : Nat) (b : α) (hi : i < l.length),
      ((l.set i b).map f).sum + f (l.get ⟨i, hi⟩) = (l.map f).sum + f b := by
  intro l
  induction l with
  | nil => intro i b hi; simp at hi
  | cons a l ih =>
      intro i b hi
      cases i with
      | zero => simp [List.set]; omega
      | succ n =>
          have hn : n < l.length := by simpa using hi
          simp only [List.set, List.map_cons, List.sum_cons, List.get_cons_succ]
          have := ih n b hn
          omega

theorem getD_eq_get (state : List WriteData) (i : Nat) (hi : i < state.length) :
    state.getD i emptyWriteData = state.get ⟨i, hi⟩ := by
  rw [List.getD_eq_getElem?_getD, List.getElem?_eq_getElem hi]
  rfl

theorem stMeasure_set (state : List WriteData) (i : Nat) (wd : WriteData)
    (hi : i < state.length) :
    stMeasure (state.set i wd) + wdMeasure (state.getD i emptyWriteData)
      = stMeasure state + wdMeasure wd := by
  rw [getD_eq_get state i hi]
  exact sum_map_set wdMeasure state i wd hi

theorem sweepStep_spec (instrs : List Instr) (labels : List (String × Nat))
    (acc : List WriteData × Bool) (i : Nat) (hok : stOK instrs acc.1) :
    stOK instrs (sweepStep instrs labels acc i).1 ∧
    stMeasure acc.1 ≤ stMeasure (sweepStep instrs labels acc i).1 ∧
    ((sweepStep instrs labels acc i).2 = true →
      acc.2 = true ∨ stMeasure acc.1 + 1 ≤ stMeasure (sweepStep instrs labels acc i).1) := by
  unfold sweepStep
  cases hget : instrs.get? i with
  | none => exact ⟨hok, le_refl _, fun h => Or.inl h⟩
  | some instr =>
      have hlen : acc.1.length = instrs.length := hok.1
      have hi : i < acc.1.length := by
        rw [hlen]
        have h := hget
        rw [List.get?_eq_getElem?] at h
        exact (List.getElem?_eq_some_iff.mp h).1
      have hwdOKs : ∀ wd ∈ acc.1, wdOK instrs wd := fun wd h => (hok.2 wd h).1
      have hwdNDs : ∀ wd ∈ acc.1, wdND wd := fun wd h => (hok.2 wd h).2
      have hnext : wdOK instrs (acc.1.getD (i + 1) emptyWriteData) :=
        getD_wdOK instrs acc.1 hwdOKs (i + 1)
      have hdestOK : wdOK instrs (acc.1.getD i emptyWriteData) :=
        getD_wdOK instrs acc.1 hwdOKs i
      have hdestND : wdND (acc.1.getD i emptyWriteData) :=
        getD_wdND acc.1 hwdNDs i
      have hnewOK : wdOK instrs
          (writeTransfer labels acc.1 i instr (acc.1.getD (i + 1) emptyWriteData)) :=
        writeTransfer_wdOK instrs labels acc.1 i instr hget hwdOKs _ hnext
      obtain ⟨u1, u2, u3, u4, u5, u6⟩ := updateWrites_spec (acc.1.getD i emptyWriteData)
        (writeTransfer labels acc.1 i instr (acc.1.getD (i + 1) emptyWriteData))
        hdestND.1 hdestND.2
      have hms := stMeasure_set acc.1 i
        (updateWrites (acc.1.getD i emptyWriteData)
          (writeTransfer labels acc.1 i instr (acc.1.getD (i + 1) emptyWriteData))).1 hi
      refine ⟨⟨?_, ?_⟩, ?_, ?_⟩
      · show (acc.1.set i _).length = instrs.length
        rw [List.length_set]
        exact hlen
      · intro wd hwd
        rcases List.mem_or_eq_of_mem_set hwd with h | h
        · exact hok.2 wd h
        · subst h
          refine ⟨⟨?_, ?_⟩, u1, u2⟩
          · intro k hk
            rcases u3 k hk with h1 | h1
            · exact hdestOK.1 k h1
            · exact hnewOK.1 k h1
          · intro j hj
            rcases u4 j hj with h1 | h1
            · exact hdestOK.2 j h1
            · exact hnewOK.2 j h1
      · show stMeasure acc.1 ≤ stMeasure (acc.1.set i _)
        omega
      · intro hflag
        have hflag2 : (acc.2
            || (updateWrites (acc.1.getD i emptyWriteData)
                 (writeTransfer labels acc.1 i instr
                   (acc.1.getD (i + 1) emptyWriteData))).2) = true := hflag
        have hor : acc.2 = true
            ∨ (updateWrites (acc.1.getD i emptyWriteData)
                (writeTransfer labels acc.1 i instr
                  (acc.1.getD (i + 1) emptyWriteData))).2 = true := by
          simpa using hflag2
        rcases hor with h | h
        · exact Or.inl h
        · right
          have := u6 h
          show stMeasure acc.1 + 1 ≤ stMeasure (acc.1.set i _)
          omega

theorem sweepWrites_spec (instrs : List Instr) (labels : List (String × Nat))
    (state : List WriteData) (hok : stOK instrs state) :
    stOK instrs (sweepWrites instrs labels state).1 ∧
    stMeasure state ≤ stMeasure (sweepWrites instrs labels state).1 ∧
    ((sweepWrites instrs labels state).2 = true →
      stMeasure state + 1 ≤ stMeasure (sweepWrites instrs labels state).1) := by
  unfold sweepWrites
  refine foldl_invariant
    (fun acc : List WriteData × Bool => stOK instrs acc.1 ∧
      stMeasure state ≤ stMeasure acc.1 ∧
      (acc.2 = true → stMeasure state + 1 ≤ stMeasure acc.1))
    (sweepStep instrs labels) (List.range instrs.length).reverse ?_ (state, false)
    ⟨hok, le_refl _, by intro h; simp at h⟩
  intro b a _ hb
  obtain ⟨hbok, hm, hflag⟩ := hb
  obtain ⟨s1, s2, s3⟩ := sweepStep_spec instrs labels b a hbok
  refine ⟨s1, le_trans hm s2, ?_⟩
  intro h
  rcases s3 h with h' | h'
  · exact le_trans (hflag h') s2
  · omega

theorem wdMeasure_le (instrs : List Instr) (wd : WriteData) (hok : wdOK instrs wd)
    (hnd : wdND wd) :
    wdMeasure wd ≤ 3 * (writeKeyUniverse instrs).length + instrs.length := by
  unfold wdMeasure
  have h1 : wmeasure wd.writes ≤ 3 * (writeKeyUniverse instrs).length := by
    unfold wmeasure
    have hlev : ∀ x ∈ wd.writes.map (fun kv => level (some kv.2)), x ≤ 3 := by
      intro x hx
      rcases List.mem_map.mp hx with ⟨kv, _, rfl⟩
      cases hv : kv.2 <;> simp [level]
    have hsum := List.sum_le_card_nsmul _ 3 hlev
    have hlen : (wd.writes.map (fun kv => level (some kv.2))).length
        = (keysOf wd.writes).length := by simp [keysOf]
    have hsub : (keysOf wd.writes).length ≤ (writeKeyUniverse instrs).length :=
      List.Subperm.length_le (List.Nodup.subperm hnd.1 hok.1)
    rw [smul_eq_mul, hlen] at hsum
    have h3 : (keysOf wd.writes).length * 3 ≤ (writeKeyUniverse instrs).length * 3 :=
      Nat.mul_le_mul_right 3 hsub
    omega
  have h2 : wd.returnsAt.length ≤ instrs.length := by
    have hsub : wd.returnsAt ⊆ List.range instrs.length := by
      intro j hj
      exact List.mem_range.mpr (hok.2 j hj)
    have := List.Subperm.length_le (List.Nodup.subperm hnd.2 hsub)
    simpa using this
  omega

theorem stMeasure_le_bound (instrs : List Instr) (state : List WriteData)
    (hok : stOK instrs state) : stMeasure state ≤ writesBound instrs := by
  unfold stMeasure writesBound
  have hlev : ∀ x ∈ state.map wdMeasure,
      x ≤ 3 * (writeKeyUniverse instrs).length + instrs.length := by
    intro x hx
    rcases List.mem_map.mp hx with ⟨wd, hwd, rfl⟩
    exact wdMeasure_le instrs wd (hok.2 wd hwd).1 (hok.2 wd hwd).2
  have hsum := List.sum_le_card_nsmul _ _ hlev
  rw [smul_eq_mul] at hsum
  simpa [List.length_map, hok.1] using hsum

theorem initWrites_stOK (instrs : List Instr) : stOK instrs (initWrites instrs) := by
  constructor
  · simp [initWrites]
  · intro wd hwd
    have h : wd = emptyWriteData := List.eq_of_mem_replicate hwd
    subst h
    exact ⟨emptyWriteData_wdOK instrs, by constructor <;> simp [emptyWriteData, keysOf]⟩

theorem writesLoop_some (instrs : List Instr) (labels : List (String × Nat)) :
    ∀ (fuel : Nat) (state : List WriteData), stOK instrs state →
      writesBound instrs + 1 ≤ stMeasure state + fuel →
      (writesLoop instrs labels fuel state).isSome = true := by
  intro fuel
  induction fuel with
  | zero =>
      intro state hok hb
      have := stMeasure_le_bound instrs state hok
      exfalso
      omega
  | succ fuel ih =>
      intro state hok hb
      rw [show writesLoop instrs labels (fuel + 1) state
          = (if (sweepWrites instrs labels state).2 then
              writesLoop instrs labels fuel (sweepWrites instrs labels state).1
            else some (sweepWrites instrs labels state).1) from rfl]
      obtain ⟨s1, s2, s3⟩ := sweepWrites_spec instrs labels state hok
      by_cases hch : (sweepWrites instrs labels state).2 = true
      · rw [if_pos hch]
        refine ih (sweepWrites instrs labels state).1 s1 ?_
        have := s3 hch
        omega
      · rw [if_neg hch]
        rfl

/-- C9: for every input instruction stream (and label table), the write-analysis
    `while (changed)` loop terminates: run with the provably sufficient fuel
    `|instructions| * (3 * |key universe| + |instructions|) + 1` passes, it
    reaches a pass that reports no change and returns a result instead of
    exhausting its fuel. The proof follows the spec's convergence argument:
    `updateWrites` only moves each binding strictly up the three-level lattice
    (absent < Reg/Stack < Any) and only grows `returnsAt`, so every changed
    pass strictly increases a bounded monotone measure. -/
theorem c9_analyzeWrites_terminates (instrs : List Instr) (labels : List (String × Nat)) :
    (analyzeWritesOpt instrs labels).isSome = true := by
  unfold analyzeWritesOpt writesFuel
  refine writesLoop_some instrs labels (writesBound instrs + 1) (initWrites instrs)
    (initWrites_stOK instrs) ?_
  omega

end DD
